import Mathlib

/-!
# Verification of view0x's incremental-analysis engine

Shallow embedding of the Python modules
`analyzers/incremental_analyzer.py`, `analyzers/multi_file_analyzer.py`
and `analyzers/false_positive_handler.py`, together with proofs settling
the frozen claims C1–C10 about them.

Modelling conventions, used throughout:
* Python `str.split('\n')` is embedded as `splitLines` below (identical
  semantics: `"" ↦ [""]`, a trailing `'\n'` yields a trailing `""`).
* The per-line `md5` digests of `compute_changeset` are only ever compared
  for equality; md5 is collision-free by design assumption (spec §7), so
  the digest function is embedded as the identity on lines (`lineHash`).
* Python `set` objects of line numbers are embedded as `Finset ℕ`.
* Machine loops are embedded as structurally recursive functions on an
  explicit iteration budget that is provably at least the number of
  iterations the Python loop performs, so the budget case is unreachable.
-/

namespace View0x

/-- Python's `s.split('\n')` on the character list of `s`:
`cur` accumulates the current line (reversed). -/
def splitLinesAux : List Char → List Char → List String
  | [], cur => [String.mk cur.reverse]
  | c :: cs, cur =>
    if c = '\n' then String.mk cur.reverse :: splitLinesAux cs []
    else splitLinesAux cs (c :: cur)

/-- Python's `contract_code.split('\n')`. Always returns at least one line. -/
def splitLines (s : String) : List String := splitLinesAux s.data []

theorem splitLinesAux_ne_nil (cs : List Char) (cur : List Char) :
    splitLinesAux cs cur ≠ [] := by
  induction cs generalizing cur with
  | nil => simp [splitLinesAux]
  | cons c cs ih =>
    simp only [splitLinesAux]
    split
    · simp
    · exact ih (c :: cur)

theorem splitLines_ne_nil (s : String) : splitLines s ≠ [] :=
  splitLinesAux_ne_nil _ _

/-- The per-line digest (`hashlib.md5(line.encode()).hexdigest()` in the
source). Digests are only compared for equality and md5 collisions are
impossible by design assumption (spec §7), so the digest is modelled as the
identity on the line's text. -/
def lineHash (s : String) : String := s

/-- `ChangeSet` dataclass of `incremental_analyzer.py`. -/
structure PyChangeSet where
  added_lines : Finset ℕ
  modified_lines : Finset ℕ
  removed_lines : Finset ℕ
  unchanged_regions : List (ℕ × ℕ)
  deriving DecidableEq

namespace Changeset

/-- The per-index classification loop of `compute_changeset`
(`for i, new_line in enumerate(new_lines)`), accumulating the pair
`(added_lines, modified_lines)`. -/
def classifyLoop (oldH newH : List String) :
    List ℕ → Finset ℕ × Finset ℕ → Finset ℕ × Finset ℕ
  | [], st => st
  | i :: is, (ad, mo) =>
    classifyLoop oldH newH is <|
      if i < oldH.length then
        if oldH.getD i "" ≠ newH.getD i "" then
          if oldH.getD i "" ∈ newH then (ad, insert (i + 1) mo)
          else (insert (i + 1) ad, mo)
        else (ad, mo)
      else (insert (i + 1) ad, mo)

/-- The removed-lines loop of `compute_changeset`
(`for i, old_line in enumerate(old_lines)`). -/
def removedLoop (oldH newH : List String) : List ℕ → Finset ℕ → Finset ℕ
  | [], st => st
  | i :: is, st =>
    removedLoop oldH newH is <|
      if newH.length ≤ i ∨ oldH.getD i "" ∉ newH then insert (i + 1) st else st

/-- The inner `while` of the unchanged-region search: starting at index `i`,
returns the final index after repeatedly advancing while
`i + 1 < len(old_lines) and (i + 1 not in removed_lines and
(i + 1 >= len(new_lines) or new_hashes[i+1] == old_hashes[i+1]))`.
The budget `f` is at least `oldH.length` at every call, which bounds the
number of iterations. -/
def innerExtend (oldH newH : List String) (removed : Finset ℕ) :
    ℕ → ℕ → ℕ
  | 0, i => i
  | f + 1, i =>
    if i + 1 < oldH.length ∧ ((i + 1) ∉ removed ∧
        (newH.length ≤ i + 1 ∨ newH.getD (i + 1) "" = oldH.getD (i + 1) "")) then
      innerExtend oldH newH removed f (i + 1)
    else i

/-- The outer `while i < len(old_lines)` of the unchanged-region search.
`i` strictly increases each iteration, so a budget of `oldH.length`
makes the budget case coincide with the loop's natural exit. -/
def regionsLoop (oldH newH : List String) (removed : Finset ℕ) :
    ℕ → ℕ → List (ℕ × ℕ) → List (ℕ × ℕ)
  | 0, _, acc => acc
  | f + 1, i, acc =>
    if i < oldH.length then
      if (i + 1) ∉ removed ∧
          (newH.length ≤ i ∨ newH.getD i "" = oldH.getD i "") then
        let e := innerExtend oldH newH removed oldH.length i
        regionsLoop oldH newH removed f (e + 1)
          (if i + 1 ≤ e + 1 then acc ++ [(i + 1, e + 1)] else acc)
      else regionsLoop oldH newH removed f (i + 1) acc
    else acc

end Changeset

open Changeset in
/-- `IncrementalAnalyzer.compute_changeset`, expressed on the two line
lists (the results of `split('\n')`). -/
def computeChangesetLines (old_lines new_lines : List String) : PyChangeSet :=
  let old_hashes := old_lines.map lineHash
  let new_hashes := new_lines.map lineHash
  let (added, modified) :=
    classifyLoop old_hashes new_hashes (List.range new_lines.length) (∅, ∅)
  let removed :=
    removedLoop old_hashes new_hashes (List.range old_lines.length) ∅
  let regions :=
    regionsLoop old_hashes new_hashes removed old_lines.length 0 []
  ⟨added, modified, removed, regions⟩

/-- `IncrementalAnalyzer.compute_changeset(old_code, new_code)`. -/
def compute_changeset (old_code new_code : String) : PyChangeSet :=
  computeChangesetLines (splitLines old_code) (splitLines new_code)

/-- A line number lies in one of the changeset's unchanged regions. -/
def inUnchanged (cs : PyChangeSet) (n : ℕ) : Prop :=
  ∃ p ∈ cs.unchanged_regions, p.1 ≤ n ∧ n ≤ p.2

instance (cs : PyChangeSet) (n : ℕ) : Decidable (inUnchanged cs n) := by
  unfold inUnchanged; infer_instance

namespace Changeset

/-- Index condition under which the classification loop marks line `i+1`
as added. -/
def addedCond (oldH newH : List String) (i : ℕ) : Prop :=
  oldH.length ≤ i ∨ (oldH.getD i "" ≠ newH.getD i "" ∧ oldH.getD i "" ∉ newH)

/-- Index condition under which the classification loop marks line `i+1`
as modified. -/
def modCond (oldH newH : List String) (i : ℕ) : Prop :=
  i < oldH.length ∧ oldH.getD i "" ≠ newH.getD i "" ∧ oldH.getD i "" ∈ newH

/-- Index condition under which the removed-lines loop marks line `i+1`
as removed. -/
def remCond (oldH newH : List String) (i : ℕ) : Prop :=
  newH.length ≤ i ∨ oldH.getD i "" ∉ newH

instance (oldH newH : List String) (i : ℕ) : Decidable (addedCond oldH newH i) := by
  unfold addedCond; infer_instance

instance (oldH newH : List String) (i : ℕ) : Decidable (modCond oldH newH i) := by
  unfold modCond; infer_instance

instance (oldH newH : List String) (i : ℕ) : Decidable (remCond oldH newH i) := by
  unfold remCond; infer_instance

theorem classify_step (oldH newH : List String) (i : ℕ) (ad mo : Finset ℕ) :
    (if i < oldH.length then
        if oldH.getD i "" ≠ newH.getD i "" then
          if oldH.getD i "" ∈ newH then (ad, insert (i + 1) mo)
          else (insert (i + 1) ad, mo)
        else (ad, mo)
      else (insert (i + 1) ad, mo)) =
    ((if addedCond oldH newH i then insert (i + 1) ad else ad),
     (if modCond oldH newH i then insert (i + 1) mo else mo)) := by
  by_cases h1 : i < oldH.length
  · by_cases h2 : oldH.getD i "" = newH.getD i ""
    · have hA : ¬ addedCond oldH newH i := by
        rintro (h | ⟨hne, _⟩)
        · exact absurd h (Nat.not_le.mpr h1)
        · exact hne h2
      have hM : ¬ modCond oldH newH i := fun h => h.2.1 h2
      rw [if_pos h1, if_neg (not_not_intro h2), if_neg hA, if_neg hM]
    · by_cases h3 : oldH.getD i "" ∈ newH
      · have hA : ¬ addedCond oldH newH i := by
          rintro (h | ⟨_, hni⟩)
          · exact absurd h (Nat.not_le.mpr h1)
          · exact hni h3
        rw [if_pos h1, if_pos h2, if_pos h3, if_neg hA,
          if_pos (show modCond oldH newH i from ⟨h1, h2, h3⟩)]
      · have hM : ¬ modCond oldH newH i := fun h => h3 h.2.2
        rw [if_pos h1, if_pos h2, if_neg h3,
          if_pos (show addedCond oldH newH i from Or.inr ⟨h2, h3⟩), if_neg hM]
  · have hM : ¬ modCond oldH newH i := fun h => h1 h.1
    rw [if_neg h1,
      if_pos (show addedCond oldH newH i from Or.inl (Nat.le_of_not_lt h1)),
      if_neg hM]

theorem mem_classifyLoop_fst (oldH newH : List String) (L : List ℕ)
    (ad mo : Finset ℕ) (n : ℕ) :
    n ∈ (classifyLoop oldH newH L (ad, mo)).1 ↔
      n ∈ ad ∨ ∃ i ∈ L, n = i + 1 ∧ addedCond oldH newH i := by
  induction L generalizing ad mo with
  | nil => simp [classifyLoop]
  | cons i is ih =>
    simp only [classifyLoop]
    rw [classify_step, ih]
    by_cases hA : addedCond oldH newH i
    · simp only [if_pos hA, Finset.mem_insert]
      constructor
      · rintro ((rfl | h) | ⟨j, hj, hn, hc⟩)
        · exact Or.inr ⟨i, List.mem_cons_self i is, rfl, hA⟩
        · exact Or.inl h
        · exact Or.inr ⟨j, List.mem_cons_of_mem i hj, hn, hc⟩
      · rintro (h | ⟨j, hj, hn, hc⟩)
        · exact Or.inl (Or.inr h)
        · rcases List.mem_cons.mp hj with rfl | hj
          · exact Or.inl (Or.inl hn)
          · exact Or.inr ⟨j, hj, hn, hc⟩
    · simp only [if_neg hA]
      constructor
      · rintro (h | ⟨j, hj, hn, hc⟩)
        · exact Or.inl h
        · exact Or.inr ⟨j, List.mem_cons_of_mem i hj, hn, hc⟩
      · rintro (h | ⟨j, hj, hn, hc⟩)
        · exact Or.inl h
        · rcases List.mem_cons.mp hj with rfl | hj
          · exact absurd hc hA
          · exact Or.inr ⟨j, hj, hn, hc⟩

theorem mem_classifyLoop_snd (oldH newH : List String) (L : List ℕ)
    (ad mo : Finset ℕ) (n : ℕ) :
    n ∈ (classifyLoop oldH newH L (ad, mo)).2 ↔
      n ∈ mo ∨ ∃ i ∈ L, n = i + 1 ∧ modCond oldH newH i := by
  induction L generalizing ad mo with
  | nil => simp [classifyLoop]
  | cons i is ih =>
    simp only [classifyLoop]
    rw [classify_step, ih]
    by_cases hM : modCond oldH newH i
    · simp only [if_pos hM, Finset.mem_insert]
      constructor
      · rintro ((rfl | h) | ⟨j, hj, hn, hc⟩)
        · exact Or.inr ⟨i, List.mem_cons_self i is, rfl, hM⟩
        · exact Or.inl h
        · exact Or.inr ⟨j, List.mem_cons_of_mem i hj, hn, hc⟩
      · rintro (h | ⟨j, hj, hn, hc⟩)
        · exact Or.inl (Or.inr h)
        · rcases List.mem_cons.mp hj with rfl | hj
          · exact Or.inl (Or.inl hn)
          · exact Or.inr ⟨j, hj, hn, hc⟩
    · simp only [if_neg hM]
      constructor
      · rintro (h | ⟨j, hj, hn, hc⟩)
        · exact Or.inl h
        · exact Or.inr ⟨j, List.mem_cons_of_mem i hj, hn, hc⟩
      · rintro (h | ⟨j, hj, hn, hc⟩)
        · exact Or.inl h
        · rcases List.mem_cons.mp hj with rfl | hj
          · exact absurd hc hM
          · exact Or.inr ⟨j, hj, hn, hc⟩

theorem mem_removedLoop (oldH newH : List String) (L : List ℕ)
    (st : Finset ℕ) (n : ℕ) :
    n ∈ removedLoop oldH newH L st ↔
      n ∈ st ∨ ∃ i ∈ L, n = i + 1 ∧ remCond oldH newH i := by
  induction L generalizing st with
  | nil => simp [removedLoop]
  | cons i is ih =>
    simp only [removedLoop]
    rw [show (if newH.length ≤ i ∨ oldH.getD i "" ∉ newH
          then insert (i + 1) st else st) =
        (if remCond oldH newH i then insert (i + 1) st else st) from rfl, ih]
    by_cases hR : remCond oldH newH i
    · simp only [if_pos hR, Finset.mem_insert]
      constructor
      · rintro ((rfl | h) | ⟨j, hj, hn, hc⟩)
        · exact Or.inr ⟨i, List.mem_cons_self i is, rfl, hR⟩
        · exact Or.inl h
        · exact Or.inr ⟨j, List.mem_cons_of_mem i hj, hn, hc⟩
      · rintro (h | ⟨j, hj, hn, hc⟩)
        · exact Or.inl (Or.inr h)
        · rcases List.mem_cons.mp hj with rfl | hj
          · exact Or.inl (Or.inl hn)
          · exact Or.inr ⟨j, hj, hn, hc⟩
    · simp only [if_neg hR]
      constructor
      · rintro (h | ⟨j, hj, hn, hc⟩)
        · exact Or.inl h
        · exact Or.inr ⟨j, List.mem_cons_of_mem i hj, hn, hc⟩
      · rintro (h | ⟨j, hj, hn, hc⟩)
        · exact Or.inl h
        · rcases List.mem_cons.mp hj with rfl | hj
          · exact absurd hc hR
          · exact Or.inr ⟨j, hj, hn, hc⟩

theorem map_lineHash (l : List String) : l.map lineHash = l :=
  List.map_id' l

theorem changeset_added_eq (ol nl : List String) :
    (computeChangesetLines ol nl).added_lines =
      (classifyLoop ol nl (List.range nl.length) (∅, ∅)).1 := by
  show (classifyLoop (ol.map lineHash) (nl.map lineHash)
      (List.range nl.length) (∅, ∅)).1 = _
  rw [map_lineHash, map_lineHash]

theorem changeset_modified_eq (ol nl : List String) :
    (computeChangesetLines ol nl).modified_lines =
      (classifyLoop ol nl (List.range nl.length) (∅, ∅)).2 := by
  show (classifyLoop (ol.map lineHash) (nl.map lineHash)
      (List.range nl.length) (∅, ∅)).2 = _
  rw [map_lineHash, map_lineHash]

theorem changeset_removed_eq (ol nl : List String) :
    (computeChangesetLines ol nl).removed_lines =
      removedLoop ol nl (List.range ol.length) ∅ := by
  show removedLoop (ol.map lineHash) (nl.map lineHash) (List.range ol.length) ∅ = _
  rw [map_lineHash, map_lineHash]

theorem changeset_regions_eq (ol nl : List String) :
    (computeChangesetLines ol nl).unchanged_regions =
      regionsLoop ol nl (removedLoop ol nl (List.range ol.length) ∅)
        ol.length 0 [] := by
  show regionsLoop (ol.map lineHash) (nl.map lineHash)
      (removedLoop (ol.map lineHash) (nl.map lineHash) (List.range ol.length) ∅)
      ol.length 0 [] = _
  rw [map_lineHash, map_lineHash]

theorem mem_added_iff (ol nl : List String) (n : ℕ) :
    n ∈ (computeChangesetLines ol nl).added_lines ↔
      ∃ i, i < nl.length ∧ n = i + 1 ∧ addedCond ol nl i := by
  rw [changeset_added_eq, mem_classifyLoop_fst]
  simp only [Finset.not_mem_empty, false_or, List.mem_range]

theorem mem_modified_iff (ol nl : List String) (n : ℕ) :
    n ∈ (computeChangesetLines ol nl).modified_lines ↔
      ∃ i, i < nl.length ∧ n = i + 1 ∧ modCond ol nl i := by
  rw [changeset_modified_eq, mem_classifyLoop_snd]
  simp only [Finset.not_mem_empty, false_or, List.mem_range]

theorem mem_removed_iff (ol nl : List String) (n : ℕ) :
    n ∈ (computeChangesetLines ol nl).removed_lines ↔
      ∃ i, i < ol.length ∧ n = i + 1 ∧ remCond ol nl i := by
  rw [changeset_removed_eq, mem_removedLoop]
  simp only [Finset.not_mem_empty, false_or, List.mem_range]

theorem innerExtend_ge (oldH newH : List String) (removed : Finset ℕ) :
    ∀ f i, i ≤ innerExtend oldH newH removed f i := by
  intro f
  induction f with
  | zero => intro i; simp [innerExtend]
  | succ f ih =>
    intro i
    simp only [innerExtend]
    split
    · exact le_trans (Nat.le_succ i) (ih (i + 1))
    · exact le_refl i

theorem innerExtend_sound (oldH newH : List String) (removed : Finset ℕ) :
    ∀ f i j, i < j → j ≤ innerExtend oldH newH removed f i →
      j < oldH.length ∧
        (newH.length ≤ j ∨ newH.getD j "" = oldH.getD j "") := by
  intro f
  induction f with
  | zero =>
    intro i j hij hj
    simp only [innerExtend] at hj
    omega
  | succ f ih =>
    intro i j hij hj
    simp only [innerExtend] at hj
    split at hj
    · rename_i hc
      rcases Nat.lt_or_ge i (j - 1) with h | h
      · have := ih (i + 1) j (by omega) hj
        exact this
      · have hji : j = i + 1 := by omega
        subst hji
        exact ⟨hc.1, hc.2.2⟩
    · omega

theorem innerExtend_lt (oldH newH : List String) (removed : Finset ℕ) :
    ∀ f i, i < oldH.length →
      innerExtend oldH newH removed f i < oldH.length := by
  intro f
  induction f with
  | zero => intro i hi; simpa [innerExtend] using hi
  | succ f ih =>
    intro i hi
    simp only [innerExtend]
    split
    · rename_i hc
      exact ih (i + 1) hc.1
    · exact hi

theorem regionsLoop_acc_mem (oldH newH : List String) (removed : Finset ℕ) :
    ∀ f i acc p, p ∈ acc → p ∈ regionsLoop oldH newH removed f i acc := by
  intro f
  induction f with
  | zero => intro i acc p hp; simpa [regionsLoop] using hp
  | succ f ih =>
    intro i acc p hp
    simp only [regionsLoop]
    split
    · split
      · refine ih _ _ _ ?_
        split
        · exact List.mem_append_left _ hp
        · exact hp
      · exact ih _ _ _ hp
    · exact hp

/-- Soundness of the produced unchanged regions: every region that is in the
output but not in the initial accumulator spans old-file indices `a ≤ b`
for which each covered index is either past the end of the new file or has
equal line content in both revisions. -/
theorem regionsLoop_sound (oldH newH : List String) (removed : Finset ℕ) :
    ∀ f i acc p, p ∈ regionsLoop oldH newH removed f i acc →
      p ∈ acc ∨ ∃ a b, p = (a + 1, b + 1) ∧ a ≤ b ∧ b < oldH.length ∧
        ∀ j, a ≤ j → j ≤ b →
          (newH.length ≤ j ∨ newH.getD j "" = oldH.getD j "") := by
  intro f
  induction f with
  | zero => intro i acc p hp; exact Or.inl (by simpa [regionsLoop] using hp)
  | succ f ih =>
    intro i acc p hp
    simp only [regionsLoop] at hp
    split at hp
    · rename_i hil
      split at hp
      · rename_i hcond
        rcases ih _ _ _ hp with hmem | hnew
        · rw [if_pos (Nat.succ_le_succ (innerExtend_ge oldH newH removed
            oldH.length i))] at hmem
          rcases List.mem_append.mp hmem with h | h
          · exact Or.inl h
          · right
            have hpe := List.mem_singleton.mp h
            refine ⟨i, innerExtend oldH newH removed oldH.length i, hpe,
              innerExtend_ge _ _ _ _ _,
              innerExtend_lt _ _ _ _ _ hil, ?_⟩
            intro j haj hjb
            rcases Nat.eq_or_lt_of_le haj with rfl | hlt
            · exact hcond.2
            · exact (innerExtend_sound oldH newH removed oldH.length i j
                hlt hjb).2
        · exact Or.inr hnew
      · rcases ih _ _ _ hp with hmem | hnew
        · exact Or.inl hmem
        · exact Or.inr hnew
    · exact Or.inl hp

/-- Completeness of the produced unchanged regions: any index `t` at which
both revisions agree (and whose line is not removed) ends up covered by some
region, provided the remaining budget reaches the end of the old file. -/
theorem regionsLoop_complete (oldH newH : List String) (removed : Finset ℕ) :
    ∀ f i acc t, oldH.length ≤ f + i → i ≤ t → t < oldH.length →
      t < newH.length → newH.getD t "" = oldH.getD t "" →
      (t + 1) ∉ removed →
      ∃ p ∈ regionsLoop oldH newH removed f i acc,
        p.1 ≤ t + 1 ∧ t + 1 ≤ p.2 := by
  intro f
  induction f with
  | zero => intro i acc t hfuel hit htl _ _ _; omega
  | succ f ih =>
    intro i acc t hfuel hit htl htn heq hrem
    have hil : i < oldH.length := lt_of_le_of_lt hit htl
    simp only [regionsLoop]
    rw [if_pos hil]
    by_cases hcond : (i + 1) ∉ removed ∧
        (newH.length ≤ i ∨ newH.getD i "" = oldH.getD i "")
    · rw [if_pos hcond]
      have hge := innerExtend_ge oldH newH removed oldH.length i
      by_cases hte : t ≤ innerExtend oldH newH removed oldH.length i
      · refine ⟨(i + 1, innerExtend oldH newH removed oldH.length i + 1),
          regionsLoop_acc_mem oldH newH removed _ _ _ _ ?_, by omega, by omega⟩
        rw [if_pos (by omega)]
        exact List.mem_append_right _ (List.mem_singleton.mpr rfl)
      · exact ih _ _ t (by omega) (by omega) htl htn heq hrem
    · rw [if_neg hcond]
      have hne : i ≠ t := by
        rintro rfl
        exact hcond ⟨hrem, Or.inr heq⟩
      exact ih _ _ t (by omega) (by omega) htl htn heq hrem

theorem regionsLoop_stop (oldH newH : List String) (removed : Finset ℕ)
    (f i : ℕ) (acc : List (ℕ × ℕ)) (h : oldH.length ≤ i) :
    regionsLoop oldH newH removed f i acc = acc := by
  cases f with
  | zero => rfl
  | succ f => simp [regionsLoop, Nat.not_lt.mpr h]

end Changeset

open Changeset

theorem getD_mem_of_lt {l : List String} {i : ℕ} (h : i < l.length) :
    l.getD i "" ∈ l := by
  rw [List.getD_eq_getElem l "" h]
  exact List.getElem_mem h

/-- C2, counterexample: for old content `"a"` and new content `"b"`, line 1
is classified both `added` (its old digest occurs nowhere in the new file)
and `removed` (its digest occurs nowhere in the new file), so the three
changed-line sets of `compute_changeset` are not pairwise disjoint as the
claim states. -/
theorem claim_C2_counterexample :
    ¬ Disjoint (compute_changeset "a" "b").added_lines
        (compute_changeset "a" "b").removed_lines := by
  decide

/-- C2, amended: the `added`/`modified` and `modified`/`removed` pairs are
disjoint (`added` and `removed` may intersect, as the counterexample shows),
and every line number of the new revision is accounted for by exactly one of
`added`, `modified`, or an unchanged region. -/
theorem claim_C2_amended (old_code new_code : String) :
    Disjoint (compute_changeset old_code new_code).added_lines
      (compute_changeset old_code new_code).modified_lines ∧
    Disjoint (compute_changeset old_code new_code).modified_lines
      (compute_changeset old_code new_code).removed_lines ∧
    ∀ n, 1 ≤ n → n ≤ (splitLines new_code).length →
      ((n ∈ (compute_changeset old_code new_code).added_lines ∧
          n ∉ (compute_changeset old_code new_code).modified_lines ∧
          ¬ inUnchanged (compute_changeset old_code new_code) n) ∨
       (n ∉ (compute_changeset old_code new_code).added_lines ∧
          n ∈ (compute_changeset old_code new_code).modified_lines ∧
          ¬ inUnchanged (compute_changeset old_code new_code) n) ∨
       (n ∉ (compute_changeset old_code new_code).added_lines ∧
          n ∉ (compute_changeset old_code new_code).modified_lines ∧
          inUnchanged (compute_changeset old_code new_code) n)) := by
  set ol := splitLines old_code with hol
  set nl := splitLines new_code with hnl
  have hcs : compute_changeset old_code new_code = computeChangesetLines ol nl := rfl
  rw [hcs]
  refine ⟨?_, ?_, ?_⟩
  · rw [Finset.disjoint_left]
    intro n hna hnm
    rcases (mem_added_iff ol nl n).mp hna with ⟨i, hi, rfl, hA⟩
    rcases (mem_modified_iff ol nl (i + 1)).mp hnm with ⟨j, hj, hij, hM⟩
    have : j = i := by omega
    subst this
    rcases hA with h | ⟨_, hni⟩
    · exact absurd hM.1 (Nat.not_lt.mpr h)
    · exact hni hM.2.2
  · rw [Finset.disjoint_left]
    intro n hnm hnr
    rcases (mem_modified_iff ol nl n).mp hnm with ⟨i, hi, rfl, hM⟩
    rcases (mem_removed_iff ol nl (i + 1)).mp hnr with ⟨j, hj, hij, hR⟩
    have : j = i := by omega
    subst this
    rcases hR with h | h
    · exact absurd hi (Nat.not_lt.mpr h)
    · exact h hM.2.2
  · intro n h1n hnl'
    obtain ⟨i, rfl⟩ : ∃ i, n = i + 1 := ⟨n - 1, by omega⟩
    have hi : i < nl.length := by omega
    by_cases hio : i < ol.length
    · by_cases heq : ol.getD i "" = nl.getD i ""
      · refine Or.inr (Or.inr ⟨?_, ?_, ?_⟩)
        · intro hmem
          rcases (mem_added_iff ol nl _).mp hmem with ⟨j, _, hij, hA⟩
          have : j = i := by omega
          subst this
          rcases hA with h | ⟨hne, _⟩
          · exact absurd hio (Nat.not_lt.mpr h)
          · exact hne heq
        · intro hmem
          rcases (mem_modified_iff ol nl _).mp hmem with ⟨j, _, hij, hM⟩
          have : j = i := by omega
          subst this
          exact hM.2.1 heq
        · have hrem : (i + 1) ∉ removedLoop ol nl (List.range ol.length) ∅ := by
            intro hmem
            rcases (mem_removedLoop ol nl _ _ _).mp hmem with h | ⟨j, _, hij, hR⟩
            · simp at h
            · have : j = i := by omega
              subst this
              rcases hR with h | h
              · exact absurd hi (Nat.not_lt.mpr h)
              · exact h (heq ▸ getD_mem_of_lt hi)
          obtain ⟨p, hp, hp1, hp2⟩ :=
            regionsLoop_complete ol nl (removedLoop ol nl (List.range ol.length) ∅)
              ol.length 0 [] i (by omega) (Nat.zero_le i) hio hi heq.symm hrem
          exact ⟨p, by rw [changeset_regions_eq]; exact hp, hp1, hp2⟩
      · have hnotun : ¬ inUnchanged (computeChangesetLines ol nl) (i + 1) := by
          rintro ⟨p, hp, hp1, hp2⟩
          rw [changeset_regions_eq] at hp
          rcases regionsLoop_sound ol nl _ _ _ _ _ hp with h | ⟨a, b, rfl, hab, hbl, hprop⟩
          · simp at h
          · simp only [Prod.fst, Prod.snd] at hp1 hp2
            have hai : a ≤ i := by omega
            have hib : i ≤ b := by omega
            rcases hprop i hai hib with h | h
            · exact absurd hi (Nat.not_lt.mpr h)
            · exact heq h.symm
        by_cases hmem : ol.getD i "" ∈ nl
        · refine Or.inr (Or.inl ⟨?_, ?_, hnotun⟩)
          · intro hmema
            rcases (mem_added_iff ol nl _).mp hmema with ⟨j, _, hij, hA⟩
            have : j = i := by omega
            subst this
            rcases hA with h | ⟨_, hni⟩
            · exact absurd hio (Nat.not_lt.mpr h)
            · exact hni hmem
          · exact (mem_modified_iff ol nl _).mpr ⟨i, hi, rfl, hio, heq, hmem⟩
        · refine Or.inl ⟨?_, ?_, hnotun⟩
          · exact (mem_added_iff ol nl _).mpr ⟨i, hi, rfl, Or.inr ⟨heq, hmem⟩⟩
          · intro hmemm
            rcases (mem_modified_iff ol nl _).mp hmemm with ⟨j, _, hij, hM⟩
            have : j = i := by omega
            subst this
            exact hmem hM.2.2
    · refine Or.inl ⟨?_, ?_, ?_⟩
      · exact (mem_added_iff ol nl _).mpr ⟨i, hi, rfl, Or.inl (Nat.le_of_not_lt hio)⟩
      · intro hmemm
        rcases (mem_modified_iff ol nl _).mp hmemm with ⟨j, _, hij, hM⟩
        have : j = i := by omega
        subst this
        exact hio hM.1
      · rintro ⟨p, hp, hp1, hp2⟩
        rw [changeset_regions_eq] at hp
        rcases regionsLoop_sound ol nl _ _ _ _ _ hp with h | ⟨a, b, rfl, hab, hbl, hprop⟩
        · simp at h
        · simp only [Prod.fst, Prod.snd] at hp1 hp2
          omega

/-- C2, witness: the amended theorem applied to the concrete revision pair
`("a\nb", "x\na")` at line 1 (a modified line). -/
theorem claim_C2_witness :
    1 ≤ 1 ∧ 1 ≤ (splitLines "x\na").length ∧
      ((1 ∈ (compute_changeset "a\nb" "x\na").added_lines ∧
          1 ∉ (compute_changeset "a\nb" "x\na").modified_lines ∧
          ¬ inUnchanged (compute_changeset "a\nb" "x\na") 1) ∨
       (1 ∉ (compute_changeset "a\nb" "x\na").added_lines ∧
          1 ∈ (compute_changeset "a\nb" "x\na").modified_lines ∧
          ¬ inUnchanged (compute_changeset "a\nb" "x\na") 1) ∨
       (1 ∉ (compute_changeset "a\nb" "x\na").added_lines ∧
          1 ∉ (compute_changeset "a\nb" "x\na").modified_lines ∧
          inUnchanged (compute_changeset "a\nb" "x\na") 1)) :=
  ⟨le_refl 1, by decide,
    (claim_C2_amended "a\nb" "x\na").2.2 1 (le_refl 1) (by decide)⟩

theorem innerExtend_self_all_eq (nl : List String) :
    ∀ f i, nl.length ≤ f + i + 1 → i < nl.length →
      innerExtend nl nl ∅ f i = nl.length - 1 := by
  intro f
  induction f with
  | zero =>
    intro i hfu hi
    simp only [innerExtend]
    omega
  | succ f ih =>
    intro i hfu hi
    simp only [innerExtend]
    by_cases hc : i + 1 < nl.length
    · rw [if_pos (by simp [hc])]
      exact ih (i + 1) (by omega) hc
    · rw [if_neg (by simp [hc])]
      omega

theorem regionsLoop_self_identical_aux (nl : List String) (f : ℕ)
    (h : 0 < nl.length) :
    regionsLoop nl nl ∅ (f + 1) 0 [] = [(1, nl.length)] := by
  simp only [regionsLoop]
  rw [if_pos h, if_pos (by simp)]
  have he : innerExtend nl nl ∅ nl.length 0 = nl.length - 1 :=
    innerExtend_self_all_eq nl nl.length 0 (by omega) h
  rw [he, if_pos (by omega)]
  rw [show nl.length - 1 + 1 = nl.length from by omega]
  rw [regionsLoop_stop nl nl ∅ f nl.length _ (le_refl _)]
  simp

theorem regionsLoop_self_identical (nl : List String) (h : 0 < nl.length) :
    regionsLoop nl nl ∅ nl.length 0 [] = [(1, nl.length)] := by
  obtain ⟨f, hf⟩ : ∃ f, nl.length = f + 1 := ⟨nl.length - 1, by omega⟩
  have haux := regionsLoop_self_identical_aux nl f h
  calc regionsLoop nl nl ∅ nl.length 0 []
      = regionsLoop nl nl ∅ (f + 1) 0 [] := by rw [hf]
    _ = [(1, nl.length)] := haux

theorem removed_self_empty (nl : List String) :
    removedLoop nl nl (List.range nl.length) ∅ = ∅ := by
  rw [Finset.eq_empty_iff_forall_not_mem]
  intro n hn
  rcases (mem_removedLoop nl nl _ _ n).mp hn with h | ⟨i, hi, _, hR⟩
  · simp at h
  · rw [List.mem_range] at hi
    rcases hR with h | h
    · omega
    · exact h (getD_mem_of_lt hi)

/-- C9, counterexample: for empty old content and new content `"x\n"`, the
old revision splits into the single empty line, whose digest occurs at index
1 of the new revision; line 1 of the new revision is therefore classified
`modified`, not `added`, contradicting the claim that every new line is
added and none modified. -/
theorem claim_C9_counterexample :
    1 ∈ (compute_changeset "" "x\n").modified_lines ∧
      1 ∉ (compute_changeset "" "x\n").added_lines := by
  decide

/-- C9, amended: empty old content splits into one empty line, so every new
line after the first is `added`, while line 1 is `added` exactly when it is
nonempty and no new line is empty, and `modified` exactly when it is
nonempty but some new line is empty (it is unchanged when empty). For
identical old and new content all three changed-line sets are empty and
there is exactly one unchanged region spanning the whole file. -/
theorem claim_C9_amended :
    (∀ new_code : String,
      (∀ n, 2 ≤ n → n ≤ (splitLines new_code).length →
        n ∈ (compute_changeset "" new_code).added_lines) ∧
      (1 ∈ (compute_changeset "" new_code).added_lines ↔
        (splitLines new_code).getD 0 "" ≠ "" ∧ "" ∉ splitLines new_code) ∧
      (1 ∈ (compute_changeset "" new_code).modified_lines ↔
        (splitLines new_code).getD 0 "" ≠ "" ∧ "" ∈ splitLines new_code)) ∧
    (∀ code : String,
      (compute_changeset code code).added_lines = ∅ ∧
      (compute_changeset code code).modified_lines = ∅ ∧
      (compute_changeset code code).removed_lines = ∅ ∧
      (compute_changeset code code).unchanged_regions =
        [(1, (splitLines code).length)]) := by
  constructor
  · intro new_code
    have hol : splitLines "" = [""] := rfl
    have hcs : compute_changeset "" new_code =
        computeChangesetLines [""] (splitLines new_code) := by
      rw [compute_changeset, hol]
    set nl := splitLines new_code with hnl
    have hnl0 : 0 < nl.length :=
      List.length_pos.mpr (splitLines_ne_nil new_code)
    refine ⟨?_, ?_, ?_⟩
    · intro n h2 hle
      rw [hcs]
      refine (mem_added_iff [""] nl n).mpr ⟨n - 1, by omega, by omega, ?_⟩
      exact Or.inl (by simp; omega)
    · rw [hcs, mem_added_iff]
      constructor
      · rintro ⟨i, hi, hone, hA⟩
        have : i = 0 := by omega
        subst this
        rcases hA with h | ⟨hne, hni⟩
        · simp at h
        · exact ⟨fun h => hne h.symm, hni⟩
      · rintro ⟨hne, hni⟩
        exact ⟨0, hnl0, rfl, Or.inr ⟨fun h => hne h.symm, hni⟩⟩
    · rw [hcs, mem_modified_iff]
      constructor
      · rintro ⟨i, hi, hone, hM⟩
        have : i = 0 := by omega
        subst this
        exact ⟨fun h => hM.2.1 h.symm, hM.2.2⟩
      · rintro ⟨hne, hmem⟩
        exact ⟨0, hnl0, rfl, Nat.one_pos, fun h => hne h.symm, hmem⟩
  · intro code
    set nl := splitLines code with hnl
    have hnl0 : 0 < nl.length :=
      List.length_pos.mpr (splitLines_ne_nil code)
    have hcs : compute_changeset code code = computeChangesetLines nl nl := rfl
    refine ⟨?_, ?_, ?_, ?_⟩
    · rw [hcs, Finset.eq_empty_iff_forall_not_mem]
      intro n hn
      rcases (mem_added_iff nl nl n).mp hn with ⟨i, hi, _, hA⟩
      rcases hA with h | ⟨hne, _⟩
      · exact absurd hi (Nat.not_lt.mpr h)
      · exact hne rfl
    · rw [hcs, Finset.eq_empty_iff_forall_not_mem]
      intro n hn
      rcases (mem_modified_iff nl nl n).mp hn with ⟨i, hi, _, hM⟩
      exact hM.2.1 rfl
    · rw [hcs, changeset_removed_eq]
      exact removed_self_empty nl
    · rw [hcs, changeset_regions_eq, removed_self_empty nl]
      exact regionsLoop_self_identical nl hnl0

/-- C9, witness: the amended theorem applied at new content `"a\nb"` for the
empty-old part (line 2 is added) and at content `"x\ny"` for the identical
part (single unchanged region `(1, 2)`). -/
theorem claim_C9_witness :
    (2 ≤ 2 ∧ 2 ≤ (splitLines "a\nb").length ∧
      2 ∈ (compute_changeset "" "a\nb").added_lines) ∧
    (compute_changeset "x\ny" "x\ny").unchanged_regions = [(1, 2)] :=
  ⟨⟨le_refl 2, by decide,
    (claim_C9_amended.1 "a\nb").1 2 (le_refl 2) (by decide)⟩,
   (claim_C9_amended.2 "x\ny").2.2.2⟩

/-! ## `MultiFileAnalyzer.topological_sort` (multi_file_analyzer.py)

The dependency graph built by `build_dependency_graph` is a Python dict
mapping each file name to its (deduplicated) list of imported files; it is
embedded as an insertion-ordered association list with `Nodup` keys and
`Nodup` adjacency lists. The `in_degree` dict is only ever read pointwise,
so it is embedded as a function `String → Int` updated with
`Function.update` (the semantics of a Python dict assignment backed by
`defaultdict(int)`). -/

/-- A dependency graph: insertion-ordered entries `(file, imports)`. -/
abbrev Graph := List (String × List String)

/-- Python `graph.get(k)` / `graph[k]` lookup (first matching key). -/
def lookupG (g : Graph) (k : String) : Option (List String) :=
  match g with
  | [] => none
  | (k2, adj) :: rest => if k = k2 then some adj else lookupG rest k

/-- The dict's key list, in insertion order (`for node in graph`). -/
def keysOf (g : Graph) : List String := g.map Prod.fst

/-- The `in_degree` map after the two initialization loops of
`topological_sort` (`in_degree[node] = 0` for each key — a no-op on the
`defaultdict(int)` zero default — then
`in_degree[neighbor] = in_degree.get(neighbor, 0) + 1` per edge). -/
def buildInDegree (g : Graph) : String → Int :=
  g.foldl
    (fun d p => p.2.foldl (fun d2 w => Function.update d2 w (d2 w + 1)) d)
    (fun _ => 0)

/-- One pass of `for neighbor in graph.get(node, [])`: decrement each
neighbor's in-degree and enqueue it when the decremented value is zero. -/
def processNbrs : List String → (String → Int) → List String →
    ((String → Int) × List String)
  | [], d, q => (d, q)
  | w :: ws, d, q =>
    let d2 := Function.update d w (d w - 1)
    processNbrs ws d2 (if d2 w = 0 then q ++ [w] else q)

/-- The `while queue:` loop of `topological_sort`: pop the queue head,
append it to the result, and process its neighbors. The budget `f` is at
least `mu` (queue length plus total positive in-degree), which strictly
decreases each iteration, so the budget case is unreachable. -/
def kahnLoop (g : Graph) : ℕ → List String → (String → Int) →
    List String → List String × (String → Int)
  | 0, _, d, res => (res, d)
  | _ + 1, [], d, res => (res, d)
  | f + 1, x :: q, d, res =>
    let adj := (lookupG g x).getD []
    kahnLoop g f (processNbrs adj d q).2 (processNbrs adj d q).1 (res ++ [x])

/-- Iteration budget for `kahnLoop`: number of keys plus number of edges. -/
def kahnFuel (g : Graph) : ℕ :=
  g.length + (g.map (fun p => p.2.length)).sum

/-- `MultiFileAnalyzer.topological_sort`. After the queue drains, the
remaining keys (members of dependency cycles) are appended in insertion
order. -/
def topological_sort (g : Graph) : List String :=
  let d0 := buildInDegree g
  let q0 := (keysOf g).filter (fun k => d0 k == 0)
  let res := (kahnLoop g (kahnFuel g) q0 d0 []).1
  (keysOf g).foldl (fun r node => if node ∈ r then r else r ++ [node]) res

/-- Boolean edge test: `v ∈ graph[u]`. -/
def hasEdge (g : Graph) (u v : String) : Bool :=
  match lookupG g u with
  | some adj => adj.contains v
  | none => false

/-- In-degree of `v` determined by the graph itself (with multiplicity). -/
def inDeg0 (g : Graph) (v : String) : ℕ :=
  (g.map (fun p => p.2.count v)).sum

/-- A cycle: a nonempty edge path from some node back to itself. -/
def Cyclic (g : Graph) : Prop :=
  ∃ v l, List.Chain (fun a b => hasEdge g a b = true) v (l ++ [v])

/-- Acyclicity of the dependency graph. -/
def Acyclic (g : Graph) : Prop := ¬ Cyclic g

theorem lookupG_mem {g : Graph} {k : String} {adj : List String}
    (h : lookupG g k = some adj) : k ∈ keysOf g := by
  induction g with
  | nil => simp [lookupG] at h
  | cons p rest ih =>
    rw [lookupG] at h
    split at h
    · rename_i heq
      exact heq ▸ List.mem_cons_self _ _
    · exact List.mem_cons_of_mem _ (ih h)

theorem lookupG_entry {g : Graph} {k : String} {adj : List String}
    (h : lookupG g k = some adj) : (k, adj) ∈ g := by
  induction g with
  | nil => simp [lookupG] at h
  | cons p rest ih =>
    rw [lookupG] at h
    split at h
    · rename_i heq
      obtain rfl := Option.some_injective _ h
      rw [heq]
      exact List.mem_cons_self _ _
    · exact List.mem_cons_of_mem _ (ih h)

theorem hasEdge_iff {g : Graph} {u v : String} :
    hasEdge g u v = true ↔ ∃ adj, lookupG g u = some adj ∧ v ∈ adj := by
  unfold hasEdge
  cases h : lookupG g u with
  | none => simp
  | some adj => simp [List.contains_iff_exists_mem_beq, beq_iff_eq, eq_comm]

theorem hasEdge_key {g : Graph} {u v : String}
    (h : hasEdge g u v = true) : u ∈ keysOf g := by
  rcases hasEdge_iff.mp h with ⟨adj, hl, _⟩
  exact lookupG_mem hl

theorem adjFold_apply (adj : List String) (d : String → Int) (v : String) :
    (adj.foldl (fun d2 w => Function.update d2 w (d2 w + 1)) d) v =
      d v + (adj.count v : Int) := by
  induction adj generalizing d with
  | nil => simp
  | cons w ws ih =>
    rw [List.foldl_cons, ih]
    by_cases h : v = w
    · subst h
      rw [Function.update_same, List.count_cons_self]
      push_cast
      ring
    · rw [Function.update_noteq h, List.count_cons_of_ne (by simpa using h)]

theorem buildInDegree_eq (g : Graph) (v : String) :
    buildInDegree g v = (inDeg0 g v : Int) := by
  unfold buildInDegree inDeg0
  suffices h : ∀ (l : Graph) (d : String → Int),
      (l.foldl (fun d p => p.2.foldl
        (fun d2 w => Function.update d2 w (d2 w + 1)) d) d) v =
        d v + ((l.map (fun p => p.2.count v)).sum : Int) by
    simpa using h g (fun _ => 0)
  intro l
  induction l with
  | nil => simp
  | cons p rest ih =>
    intro d
    rw [List.foldl_cons, ih, adjFold_apply, List.map_cons, List.sum_cons]
    ring

theorem nodup_subset_length {l1 l2 : List String} (h1 : l1.Nodup)
    (h2 : l2.Nodup) (hs : l1 ⊆ l2) : l1.length ≤ l2.length := by
  rw [← List.toFinset_card_of_nodup h1, ← List.toFinset_card_of_nodup h2]
  exact Finset.card_le_card (fun x hx =>
    List.mem_toFinset.mpr (hs (List.mem_toFinset.mp hx)))

theorem count_nodup {ws : List String} (h : ws.Nodup) (v : String) :
    ws.count v = if v ∈ ws then 1 else 0 := by
  by_cases hv : v ∈ ws
  · rw [List.count_eq_one_of_mem h hv, if_pos hv]
  · rw [List.count_eq_zero_of_not_mem hv, if_neg hv]

theorem hasEdge_head (k : String) (adj : List String) (rest : Graph)
    (v : String) : hasEdge ((k, adj) :: rest) k v = adj.contains v := by
  unfold hasEdge
  rw [show lookupG ((k, adj) :: rest) k = some adj from by
    rw [lookupG]; exact if_pos rfl]

theorem hasEdge_tail {k : String} {adj : List String} {rest : Graph}
    {u : String} (h : u ≠ k) (v : String) :
    hasEdge ((k, adj) :: rest) u v = hasEdge rest u v := by
  unfold hasEdge
  rw [show lookupG ((k, adj) :: rest) u = lookupG rest u from by
    rw [lookupG]; exact if_neg h]

/-- `inDeg0` counts, for deduplicated graphs, the keys with an edge into
`v`. -/
theorem inDeg0_eq_countP (g : Graph) (hk : (keysOf g).Nodup)
    (ha : ∀ p ∈ g, p.2.Nodup) (v : String) :
    inDeg0 g v = (keysOf g).countP (fun u => hasEdge g u v) := by
  induction g with
  | nil => simp [inDeg0, keysOf]
  | cons p rest ih =>
    obtain ⟨k, adj⟩ := p
    have hpair := List.nodup_cons.mp (show (k :: keysOf rest).Nodup from hk)
    have hk' : (keysOf rest).Nodup := hpair.2
    have hknot : k ∉ keysOf rest := hpair.1
    have ha' : ∀ q ∈ rest, q.2.Nodup := fun q hq =>
      ha q (List.mem_cons_of_mem _ hq)
    have hadj : adj.Nodup := ha (k, adj) (List.mem_cons_self _ _)
    have hstep : inDeg0 ((k, adj) :: rest) v = adj.count v + inDeg0 rest v := by
      simp [inDeg0]
    have hkeys : keysOf ((k, adj) :: rest) = k :: keysOf rest := rfl
    rw [hstep, hkeys, List.countP_cons]
    have hcongr : (keysOf rest).countP (fun u => hasEdge ((k, adj) :: rest) u v) =
        (keysOf rest).countP (fun u => hasEdge rest u v) := by
      apply List.countP_congr
      intro u hu
      rw [hasEdge_tail (fun he => hknot (by rw [he] at hu; exact hu)) v]
    rw [hcongr, ← ih hk' ha']
    have hhead : (if hasEdge ((k, adj) :: rest) k v = true
        then 1 else 0) = adj.count v := by
      rw [hasEdge_head]
      by_cases hv : v ∈ adj
      · rw [count_nodup hadj v, if_pos hv, if_pos (by simpa using hv)]
      · rw [count_nodup hadj v, if_neg hv, if_neg (by simpa using hv)]
    simp only [hhead]
    omega

theorem processNbrs_deg (ws : List String) (d : String → Int)
    (q : List String) (v : String) :
    (processNbrs ws d q).1 v = d v - (ws.count v : Int) := by
  induction ws generalizing d q with
  | nil => simp [processNbrs]
  | cons w ws ih =>
    rw [processNbrs, ih]
    by_cases h : v = w
    · subst h
      rw [Function.update_same, List.count_cons_self]
      push_cast
      ring
    · rw [Function.update_noteq h, List.count_cons_of_ne (by simpa using h)]

theorem processNbrs_queue (ws : List String) (d : String → Int)
    (q : List String) (hn : ws.Nodup) :
    ∃ nw, (processNbrs ws d q).2 = q ++ nw ∧ nw.Nodup ∧
      ∀ v, v ∈ nw ↔ (v ∈ ws ∧ d v = 1) := by
  induction ws generalizing d q with
  | nil => exact ⟨[], by simp [processNbrs], List.nodup_nil, by simp⟩
  | cons w ws ih =>
    have hw : w ∉ ws := (List.nodup_cons.mp hn).1
    have hn' : ws.Nodup := (List.nodup_cons.mp hn).2
    rw [processNbrs]
    by_cases hz : d w = 1
    · rw [if_pos (show Function.update d w (d w - 1) w = 0 by
        rw [Function.update_same]; omega)]
      obtain ⟨nw, hq, hnw, hmem⟩ := ih (Function.update d w (d w - 1))
        (q ++ [w]) hn'
      have hmem' : ∀ v, v ∈ nw ↔ (v ∈ ws ∧ d v = 1) := by
        intro v
        rw [hmem v]
        constructor
        · rintro ⟨hv, hd⟩
          refine ⟨hv, ?_⟩
          rwa [Function.update_noteq (show v ≠ w from
            fun he => hw (he ▸ hv))] at hd
        · rintro ⟨hv, hd⟩
          exact ⟨hv, by rwa [Function.update_noteq (show v ≠ w from
            fun he => hw (he ▸ hv))]⟩
      refine ⟨w :: nw, by rw [hq, List.append_assoc]; rfl, ?_, ?_⟩
      · exact List.nodup_cons.mpr ⟨fun hc => hw ((hmem' w).mp hc).1, hnw⟩
      · intro v
        rw [List.mem_cons, hmem' v, List.mem_cons]
        constructor
        · rintro (rfl | ⟨hv, hd⟩)
          · exact ⟨Or.inl rfl, hz⟩
          · exact ⟨Or.inr hv, hd⟩
        · rintro ⟨rfl | hv, hd⟩
          · exact Or.inl rfl
          · exact Or.inr ⟨hv, hd⟩
    · rw [if_neg (show ¬ Function.update d w (d w - 1) w = 0 by
        rw [Function.update_same]; omega)]
      obtain ⟨nw, hq, hnw, hmem⟩ := ih (Function.update d w (d w - 1)) q hn'
      have hmem' : ∀ v, v ∈ nw ↔ (v ∈ ws ∧ d v = 1) := by
        intro v
        rw [hmem v]
        constructor
        · rintro ⟨hv, hd⟩
          refine ⟨hv, ?_⟩
          rwa [Function.update_noteq (show v ≠ w from
            fun he => hw (he ▸ hv))] at hd
        · rintro ⟨hv, hd⟩
          exact ⟨hv, by rwa [Function.update_noteq (show v ≠ w from
            fun he => hw (he ▸ hv))]⟩
      refine ⟨nw, hq, hnw, ?_⟩
      intro v
      rw [hmem' v, List.mem_cons]
      constructor
      · rintro ⟨hv, hd⟩
        exact ⟨Or.inr hv, hd⟩
      · rintro ⟨rfl | hv, hd⟩
        · exact absurd hd hz
        · exact ⟨hv, hd⟩

/-- All node names occurring in the graph (keys and neighbors). -/
def nodeSet (g : Graph) : Finset String :=
  (keysOf g ++ (g.map Prod.snd).flatten).toFinset

/-- Total positive in-degree over the graph's nodes. -/
def degSum (g : Graph) (d : String → Int) : ℕ :=
  ∑ v ∈ nodeSet g, (d v).toNat

/-- Decreasing measure of the Kahn loop: queue length plus total positive
in-degree. -/
def mu (g : Graph) (q : List String) (d : String → Int) : ℕ :=
  q.length + degSum g d

theorem degSum_update {g : Graph} {w : String} (hw : w ∈ nodeSet g)
    (d : String → Int) (x : Int) :
    degSum g (Function.update d w x) + (d w).toNat =
      degSum g d + x.toNat := by
  unfold degSum
  have hpt : ∀ v ∈ nodeSet g, (Function.update d w x v).toNat =
      Function.update (fun u => (d u).toNat) w x.toNat v := by
    intro v _
    by_cases h : v = w
    · subst h
      rw [Function.update_same, Function.update_same]
    · rw [Function.update_noteq h, Function.update_noteq h]
  rw [Finset.sum_congr rfl hpt, Finset.sum_update_of_mem hw]
  have : ∑ v ∈ nodeSet g, (d v).toNat =
      (d w).toNat + ∑ v ∈ nodeSet g \ {w}, (d v).toNat := by
    rw [Finset.sum_eq_sum_diff_singleton_add hw (fun u => (d u).toNat)]
    ring
  omega

theorem processNbrs_mu {g : Graph} (ws : List String) (d : String → Int)
    (q : List String) (hws : ∀ w ∈ ws, w ∈ nodeSet g) :
    (processNbrs ws d q).2.length + degSum g (processNbrs ws d q).1 ≤
      q.length + degSum g d := by
  induction ws generalizing d q with
  | nil => simp [processNbrs]
  | cons w ws ih =>
    rw [processNbrs]
    have hw : w ∈ nodeSet g := hws w (List.mem_cons_self _ _)
    have hws' : ∀ u ∈ ws, u ∈ nodeSet g := fun u hu =>
      hws u (List.mem_cons_of_mem _ hu)
    have hupd := degSum_update hw d (d w - 1)
    refine le_trans (ih (Function.update d w (d w - 1)) _ hws') ?_
    by_cases hz : Function.update d w (d w - 1) w = 0
    · rw [if_pos hz, List.length_append]
      rw [Function.update_same] at hz
      have h1 : (d w).toNat = 1 := by omega
      have h0 : (d w - 1).toNat = 0 := by omega
      simp only [List.length_singleton]
      omega
    · rw [if_neg hz]
      rw [Function.update_same] at hz
      have : (d w - 1).toNat ≤ (d w).toNat := by omega
      omega

/-- Loop invariant of `kahnLoop` over state (queue `q`, in-degree map `d`,
result `res`). -/
structure KahnInv (g : Graph) (q : List String) (d : String → Int)
    (res : List String) : Prop where
  res_nodup : res.Nodup
  q_nodup : q.Nodup
  disj : ∀ w ∈ q, w ∉ res
  nonpos : ∀ w, (w ∈ q ∨ w ∈ res) → d w ≤ 0
  deg_eq : ∀ v, d v = (inDeg0 g v : Int) -
    (res.countP (fun u => hasEdge g u v) : Int)
  not_reached : ∀ u v, hasEdge g u v = true → u ∉ res →
    (v ∉ q ∧ v ∉ res)
  ordered : ∀ u v, hasEdge g u v = true → ∀ r1 r2,
    res = r1 ++ v :: r2 → u ∈ r1
  zero_in : ∀ k, k ∈ keysOf g → d k = 0 → (k ∈ q ∨ k ∈ res)

theorem append_singleton_split {res r1 r2 : List String} {x v : String}
    (h : res ++ [x] = r1 ++ v :: r2) :
    (r2 = [] ∧ r1 = res ∧ v = x) ∨
      ∃ r2', r2 = r2' ++ [x] ∧ res = r1 ++ v :: r2' := by
  rcases r2.eq_nil_or_concat with rfl | ⟨r2', y, rfl⟩
  · obtain ⟨h1, h2⟩ := List.append_inj' h rfl
    exact Or.inl ⟨rfl, h1.symm, (List.singleton_injective h2.symm)⟩
  · rw [List.concat_eq_append, show v :: (r2' ++ [y]) = (v :: r2') ++ [y]
      from rfl, ← List.append_assoc] at h
    obtain ⟨h1, h2⟩ := List.append_inj' h rfl
    exact Or.inr ⟨r2', by rw [List.concat_eq_append,
      List.singleton_injective h2], h1⟩

theorem countP_le_keys (g : Graph) (hk : (keysOf g).Nodup)
    {res : List String} (hres : res.Nodup) (v : String) :
    res.countP (fun u => hasEdge g u v) ≤
      (keysOf g).countP (fun u => hasEdge g u v) := by
  rw [List.countP_eq_length_filter, List.countP_eq_length_filter]
  refine nodup_subset_length (hres.filter _) (hk.filter _) ?_
  intro a ha
  rw [List.mem_filter] at ha ⊢
  exact ⟨hasEdge_key ha.2, ha.2⟩

theorem countP_keys_le (g : Graph) (hk : (keysOf g).Nodup)
    {res : List String} (hres : res.Nodup) (v : String)
    (hall : ∀ u ∈ keysOf g, hasEdge g u v = true → u ∈ res) :
    (keysOf g).countP (fun u => hasEdge g u v) ≤
      res.countP (fun u => hasEdge g u v) := by
  rw [List.countP_eq_length_filter, List.countP_eq_length_filter]
  refine nodup_subset_length (hk.filter _) (hres.filter _) ?_
  intro a ha
  rw [List.mem_filter] at ha ⊢
  exact ⟨hall a ha.1 ha.2, ha.2⟩

theorem countP_add_two_le (g : Graph) (hk : (keysOf g).Nodup)
    {res : List String} {u x v : String} (hres : res.Nodup)
    (hu : u ∉ res) (hx : x ∉ res) (hux : u ≠ x)
    (heu : hasEdge g u v = true) (hex : hasEdge g x v = true) :
    res.countP (fun u' => hasEdge g u' v) + 2 ≤
      (keysOf g).countP (fun u' => hasEdge g u' v) := by
  rw [List.countP_eq_length_filter, List.countP_eq_length_filter]
  have hlen : (res.filter (fun u' => hasEdge g u' v) ++ [u, x]).length =
      (res.filter (fun u' => hasEdge g u' v)).length + 2 := by
    rw [List.length_append]
    rfl
  rw [← hlen]
  refine nodup_subset_length ?_ (hk.filter _) ?_
  · rw [List.nodup_append]
    refine ⟨hres.filter _, ?_, ?_⟩
    · simp [hux]
    · intro a haf hax
      have : a ∈ res := (List.mem_filter.mp haf).1
      rcases List.mem_cons.mp hax with rfl | hax
      · exact hu this
      · rw [List.mem_singleton.mp hax] at this
        exact hx this
  · intro a haf
    rw [List.mem_filter]
    rcases List.mem_append.mp haf with h | h
    · have := List.mem_filter.mp h
      exact ⟨hasEdge_key (by simpa using this.2), by simpa using this.2⟩
    · rcases List.mem_cons.mp h with rfl | h
      · exact ⟨hasEdge_key heu, by simpa using heu⟩
      · rw [List.mem_singleton.mp h]
        exact ⟨hasEdge_key hex, by simpa using hex⟩

theorem adj_facts (g : Graph) (ha : ∀ p ∈ g, p.2.Nodup) (x : String) :
    ((lookupG g x).getD []).Nodup ∧
    (∀ w ∈ (lookupG g x).getD [], w ∈ nodeSet g) ∧
    (∀ v, hasEdge g x v = true ↔ v ∈ (lookupG g x).getD []) := by
  cases hl : lookupG g x with
  | none =>
    refine ⟨by simp, by simp, ?_⟩
    intro v
    simp only [Option.getD_none, List.not_mem_nil, iff_false]
    unfold hasEdge
    rw [hl]
    simp
  | some adj =>
    simp only [Option.getD_some]
    refine ⟨ha (x, adj) (lookupG_entry hl), ?_, ?_⟩
    · intro w hw
      unfold nodeSet
      rw [List.mem_toFinset, List.mem_append]
      right
      rw [List.mem_flatten]
      exact ⟨adj, List.mem_map.mpr ⟨(x, adj), lookupG_entry hl, rfl⟩, hw⟩
    · intro v
      unfold hasEdge
      rw [hl]
      simp [List.contains_iff_exists_mem_beq, beq_iff_eq, eq_comm]

theorem kahnLoop_master (g : Graph) (hk : (keysOf g).Nodup)
    (ha : ∀ p ∈ g, p.2.Nodup) :
    ∀ f q d res, KahnInv g q d res → mu g q d ≤ f →
      KahnInv g [] (kahnLoop g f q d res).2 (kahnLoop g f q d res).1 := by
  intro f
  induction f with
  | zero =>
    intro q d res hinv hmu
    have hq : q = [] :=
      List.eq_nil_of_length_eq_zero (by unfold mu at hmu; omega)
    subst hq
    exact hinv
  | succ f ih =>
    intro q d res hinv hmu
    cases q with
    | nil => exact hinv
    | cons x q' =>
      show KahnInv g []
        (kahnLoop g f (processNbrs ((lookupG g x).getD []) d q').2
          (processNbrs ((lookupG g x).getD []) d q').1 (res ++ [x])).2
        (kahnLoop g f (processNbrs ((lookupG g x).getD []) d q').2
          (processNbrs ((lookupG g x).getD []) d q').1 (res ++ [x])).1
      obtain ⟨hadjN, hadjsub, hedge⟩ := adj_facts g ha x
      have hdeg := processNbrs_deg ((lookupG g x).getD []) d q'
      obtain ⟨nw, hq2, hnwN, hnwmem⟩ :=
        processNbrs_queue ((lookupG g x).getD []) d q' hadjN
      have hxq' : x ∉ q' := (List.nodup_cons.mp hinv.q_nodup).1
      have hq'N : q'.Nodup := (List.nodup_cons.mp hinv.q_nodup).2
      have hxres : x ∉ res := hinv.disj x (List.mem_cons_self _ _)
      have hcnt : ∀ v, ((((lookupG g x).getD []).count v : Int)) =
          if v ∈ (lookupG g x).getD [] then 1 else 0 := by
        intro v
        rw [count_nodup hadjN]
        split <;> rfl
      have hd2 : ∀ v, (processNbrs ((lookupG g x).getD []) d q').1 v =
          d v - (if v ∈ (lookupG g x).getD [] then 1 else 0) := by
        intro v
        rw [hdeg v, hcnt v]
      have hd2le : ∀ v, (processNbrs ((lookupG g x).getD []) d q').1 v ≤ d v := by
        intro v
        rw [hd2 v]
        split <;> omega
      have hnwd : ∀ v ∈ nw, d v = 1 := fun v hv => ((hnwmem v).mp hv).2
      have hnwadj : ∀ v ∈ nw, v ∈ (lookupG g x).getD [] :=
        fun v hv => ((hnwmem v).mp hv).1
      refine ih _ _ _ ?_ ?_
      · refine ⟨?_, ?_, ?_, ?_, ?_, ?_, ?_, ?_⟩
        · rw [List.nodup_append]
          exact ⟨hinv.res_nodup, List.nodup_singleton x,
            fun a hares hax => hxres ((List.mem_singleton.mp hax) ▸ hares)⟩
        · rw [hq2, List.nodup_append]
          refine ⟨hq'N, hnwN, ?_⟩
          intro a haq' hanw
          have h1 : d a ≤ 0 := hinv.nonpos a (Or.inl (List.mem_cons_of_mem _ haq'))
          have h2 : d a = 1 := hnwd a hanw
          omega
        · intro w hw
          rw [hq2, List.mem_append] at hw
          rw [List.mem_append, List.mem_singleton]
          rintro (hres | rfl)
          · rcases hw with hw | hw
            · exact hinv.disj w (List.mem_cons_of_mem _ hw) hres
            · have h1 : d w ≤ 0 := hinv.nonpos w (Or.inr hres)
              have h2 : d w = 1 := hnwd w hw
              omega
          · rcases hw with hw | hw
            · exact hxq' hw
            · have h1 : d w ≤ 0 :=
                hinv.nonpos w (Or.inl (List.mem_cons_self _ _))
              have h2 : d w = 1 := hnwd w hw
              omega
        · intro w hw
          rcases hw with hw | hw
          · rw [hq2, List.mem_append] at hw
            rcases hw with hw | hw
            · exact le_trans (hd2le w)
                (hinv.nonpos w (Or.inl (List.mem_cons_of_mem _ hw)))
            · rw [hd2 w, if_pos (hnwadj w hw), hnwd w hw]
              omega
          · rw [List.mem_append, List.mem_singleton] at hw
            rcases hw with hw | rfl
            · exact le_trans (hd2le w) (hinv.nonpos w (Or.inr hw))
            · exact le_trans (hd2le w)
                (hinv.nonpos w (Or.inl (List.mem_cons_self _ _)))
        · intro v
          rw [hd2 v, hinv.deg_eq v, List.countP_append]
          have hsing : ([x].countP (fun u => hasEdge g u v)) =
              if v ∈ (lookupG g x).getD [] then 1 else 0 := by
            rw [List.countP_cons, List.countP_nil]
            by_cases hv : v ∈ (lookupG g x).getD []
            · rw [if_pos hv, if_pos (by simpa using (hedge v).mpr hv)]
            · rw [if_neg hv, if_neg (by
                intro hc
                exact hv ((hedge v).mp (by simpa using hc)))]
          rw [hsing]
          push_cast
          split <;> ring
        · intro u v huv hunotin
          rw [List.mem_append, List.mem_singleton] at hunotin
          push_neg at hunotin
          obtain ⟨hures, hux⟩ := hunotin
          obtain ⟨hvq, hvres⟩ := hinv.not_reached u v huv hures
          have hvx : v ≠ x := fun he => hvq (he ▸ List.mem_cons_self _ _)
          constructor
          · rw [hq2, List.mem_append]
            rintro (hv | hv)
            · exact hvq (List.mem_cons_of_mem _ hv)
            · have hvadj : v ∈ (lookupG g x).getD [] := hnwadj v hv
              have hdv1 : d v = 1 := hnwd v hv
              have hex : hasEdge g x v = true := (hedge v).mpr hvadj
              have hcount := countP_add_two_le g hk hinv.res_nodup
                hures hxres hux huv hex
              have hle := countP_le_keys g hk hinv.res_nodup v
              have hdeq := hinv.deg_eq v
              rw [inDeg0_eq_countP g hk ha v] at hdeq
              omega
          · rw [List.mem_append, List.mem_singleton]
            rintro (hv | rfl)
            · exact hvres hv
            · exact hvx rfl
        · intro u v huv r1 r2 hsplit
          rcases append_singleton_split hsplit with ⟨_, rfl, rfl⟩ |
            ⟨r2', _, hres⟩
          · by_contra hur1
            obtain ⟨hvq, _⟩ := hinv.not_reached u v huv hur1
            exact hvq (List.mem_cons_self _ _)
          · exact hinv.ordered u v huv r1 r2' hres
        · intro k hkkeys hk0
          by_cases hkadj : k ∈ (lookupG g x).getD []
          · have hdk : d k = 1 := by
              have := hd2 k
              rw [if_pos hkadj] at this
              omega
            left
            rw [hq2, List.mem_append]
            exact Or.inr ((hnwmem k).mpr ⟨hkadj, hdk⟩)
          · have hdk : d k = 0 := by
              have := hd2 k
              rw [if_neg hkadj] at this
              omega
            rcases hinv.zero_in k hkkeys hdk with hkq | hkres
            · rcases List.mem_cons.mp hkq with rfl | hkq'
              · right
                rw [List.mem_append, List.mem_singleton]
                exact Or.inr rfl
              · left
                rw [hq2, List.mem_append]
                exact Or.inl hkq'
            · right
              rw [List.mem_append]
              exact Or.inl hkres
      · have hmu2 := processNbrs_mu ((lookupG g x).getD []) d q' hadjsub
        unfold mu at hmu ⊢
        rw [List.length_cons] at hmu
        omega

theorem kahnInv_init (g : Graph) (hk : (keysOf g).Nodup)
    (ha : ∀ p ∈ g, p.2.Nodup) :
    KahnInv g ((keysOf g).filter (fun k => buildInDegree g k == 0))
      (buildInDegree g) [] := by
  refine ⟨List.nodup_nil, hk.filter _, by simp, ?_, ?_, ?_, ?_, ?_⟩
  · intro w hw
    rcases hw with hw | hw
    · have := beq_iff_eq.mp (List.mem_filter.mp hw).2
      omega
    · simp at hw
  · intro v
    rw [buildInDegree_eq g v]
    simp
  · intro u v huv _
    refine ⟨?_, by simp⟩
    intro hv
    have hv0 : buildInDegree g v = 0 :=
      beq_iff_eq.mp (List.mem_filter.mp hv).2
    rw [buildInDegree_eq g v, inDeg0_eq_countP g hk ha v] at hv0
    have hpos : 0 < (keysOf g).countP (fun u' => hasEdge g u' v) :=
      List.countP_pos_iff.mpr ⟨u, hasEdge_key huv, huv⟩
    omega
  · intro u v _ r1 r2 h
    exact absurd h (by simp)
  · intro k hkk hk0
    exact Or.inl (List.mem_filter.mpr ⟨hkk, beq_iff_eq.mpr hk0⟩)

theorem sum_count_eq_length (S : Finset String) (l : List String)
    (hl : ∀ a ∈ l, a ∈ S) : ∑ v ∈ S, l.count v = l.length := by
  induction l with
  | nil => simp
  | cons a l ih =>
    have hcnt : ∀ v, (a :: l).count v = l.count v + if v = a then 1 else 0 := by
      intro v
      rw [List.count_cons]
      by_cases h : v = a
      · rw [if_pos h, if_pos (by simpa using h.symm)]
      · rw [if_neg h, if_neg (by simpa using fun he => h he.symm)]
    calc ∑ v ∈ S, (a :: l).count v
        = ∑ v ∈ S, (l.count v + if v = a then 1 else 0) :=
          Finset.sum_congr rfl (fun v _ => hcnt v)
      _ = (∑ v ∈ S, l.count v) + ∑ v ∈ S, (if v = a then 1 else 0) :=
          Finset.sum_add_distrib
      _ = l.length + 1 := by
          rw [ih (fun b hb => hl b (List.mem_cons_of_mem _ hb)),
            Finset.sum_ite_eq' S a (fun _ => 1),
            if_pos (hl a (List.mem_cons_self _ _))]
      _ = (a :: l).length := by rw [List.length_cons]

theorem sum_inDeg0 (g : Graph) (S : Finset String)
    (hS : ∀ p ∈ g, ∀ a ∈ p.2, a ∈ S) :
    ∑ v ∈ S, inDeg0 g v = (g.map (fun p => p.2.length)).sum := by
  induction g with
  | nil => simp [inDeg0]
  | cons p rest ih =>
    have hstep : ∀ v, inDeg0 (p :: rest) v = p.2.count v + inDeg0 rest v := by
      intro v
      simp [inDeg0]
    calc ∑ v ∈ S, inDeg0 (p :: rest) v
        = ∑ v ∈ S, (p.2.count v + inDeg0 rest v) :=
          Finset.sum_congr rfl (fun v _ => hstep v)
      _ = (∑ v ∈ S, p.2.count v) + ∑ v ∈ S, inDeg0 rest v :=
          Finset.sum_add_distrib
      _ = p.2.length + (rest.map (fun p => p.2.length)).sum := by
          rw [sum_count_eq_length S p.2 (hS p (List.mem_cons_self _ _)),
            ih (fun q hq => hS q (List.mem_cons_of_mem _ hq))]
      _ = ((p :: rest).map (fun p => p.2.length)).sum := by
          rw [List.map_cons, List.sum_cons]

theorem mu_init_le (g : Graph) :
    mu g ((keysOf g).filter (fun k => buildInDegree g k == 0))
      (buildInDegree g) ≤ kahnFuel g := by
  unfold mu kahnFuel
  have h1 : ((keysOf g).filter (fun k => buildInDegree g k == 0)).length ≤
      g.length := by
    refine le_trans (List.length_filter_le _ _) ?_
    simp [keysOf]
  have h2 : degSum g (buildInDegree g) = (g.map (fun p => p.2.length)).sum := by
    unfold degSum
    have hpt : ∀ v ∈ nodeSet g, (buildInDegree g v).toNat = inDeg0 g v := by
      intro v _
      rw [buildInDegree_eq g v, Int.toNat_natCast]
    rw [Finset.sum_congr rfl hpt]
    refine sum_inDeg0 g (nodeSet g) ?_
    intro p hp a hap
    unfold nodeSet
    rw [List.mem_toFinset, List.mem_append]
    exact Or.inr (List.mem_flatten.mpr ⟨p.2, List.mem_map.mpr ⟨p, hp, rfl⟩, hap⟩)
  omega

theorem chain_extend {R : String → String → Prop} {a b c : String}
    {l : List String} (h : List.Chain R a (l ++ [b])) (hbc : R b c) :
    List.Chain R a ((l ++ [b]) ++ [c]) := by
  rw [List.append_assoc]
  exact List.chain_split.mpr ⟨h, List.chain_singleton.mpr hbc⟩

theorem chain_last {R : String → String → Prop} {a b : String}
    {l : List String} (h : List.Chain R a (l ++ [b])) : ∃ c, R c b := by
  induction l generalizing a with
  | nil => exact ⟨a, List.chain_singleton.mp h⟩
  | cons x t ih =>
    rw [List.cons_append, List.chain_cons] at h
    exact ih h.2

/-- If every member of a nonempty node list has a graph predecessor inside
the list, the graph has a cycle (pigeonhole over iterated predecessors). -/
theorem cyclic_of_pred (g : Graph) (S : List String) (hne : S ≠ [])
    (hpred : ∀ k ∈ S, ∃ u ∈ S, hasEdge g u k = true) : Cyclic g := by
  classical
  obtain ⟨s0, hs0⟩ := List.exists_mem_of_ne_nil S hne
  have hpred' : ∀ y : {z // z ∈ S.toFinset},
      ∃ u, u ∈ S ∧ hasEdge g u y.1 = true := by
    intro y
    obtain ⟨u, hu, he⟩ := hpred y.1 (List.mem_toFinset.mp y.2)
    exact ⟨u, hu, he⟩
  choose F hFmem hFedge using hpred'
  let f : {z // z ∈ S.toFinset} → {z // z ∈ S.toFinset} :=
    fun y => ⟨F y, List.mem_toFinset.mpr (hFmem y)⟩
  have hf : ∀ y, hasEdge g (f y).1 y.1 = true := hFedge
  let x0 : {z // z ∈ S.toFinset} := ⟨s0, List.mem_toFinset.mpr hs0⟩
  obtain ⟨i, j, hij, heq⟩ :=
    Finite.exists_ne_map_eq_of_infinite (fun n : ℕ => f^[n] x0)
  obtain ⟨i, j, hlt, heq⟩ : ∃ i j, i < j ∧ f^[i] x0 = f^[j] x0 := by
    rcases lt_or_gt_of_ne hij with h | h
    · exact ⟨i, j, h, heq⟩
    · exact ⟨j, i, h, heq.symm⟩
  have hchain : ∀ n (y : {z // z ∈ S.toFinset}),
      ∃ l, List.Chain (fun a b => hasEdge g a b = true)
        ((f^[n + 1]) y).1 (l ++ [y.1]) := by
    intro n
    induction n with
    | zero =>
      intro y
      refine ⟨[], ?_⟩
      rw [List.nil_append]
      exact List.chain_singleton.mpr (hf y)
    | succ n ihn =>
      intro y
      obtain ⟨l, hl⟩ := ihn (f y)
      refine ⟨l ++ [(f y).1], ?_⟩
      rw [Function.iterate_succ_apply]
      exact chain_extend hl (hf y)
  obtain ⟨m, hmeq⟩ : ∃ m, j - i = m + 1 := ⟨j - i - 1, by omega⟩
  have hcycle : f^[j - i] (f^[i] x0) = f^[i] x0 := by
    rw [← Function.iterate_add_apply, show j - i + i = j from by omega]
    exact heq.symm
  obtain ⟨l, hl⟩ := hchain m (f^[i] x0)
  rw [← hmeq, hcycle] at hl
  exact ⟨(f^[i] x0).1, l, hl⟩

/-- After the queue drains, every key of the graph is in the result —
otherwise the keys left out would all have predecessors left out, which
yields a cycle. -/
theorem kahn_complete (g : Graph) (hk : (keysOf g).Nodup)
    (ha : ∀ p ∈ g, p.2.Nodup) (hacy : Acyclic g) {d : String → Int}
    {res : List String} (hinv : KahnInv g [] d res) :
    ∀ k ∈ keysOf g, k ∈ res := by
  by_contra hcon
  push_neg at hcon
  obtain ⟨k0, hk0keys, hk0res⟩ := hcon
  refine hacy (cyclic_of_pred g ((keysOf g).filter (fun k => !(res.contains k)))
    (List.ne_nil_of_mem (List.mem_filter.mpr ⟨hk0keys, by simpa using hk0res⟩))
    ?_)
  intro k hkS
  obtain ⟨hkkeys, hknres⟩ := List.mem_filter.mp hkS
  have hknres' : k ∉ res := by simpa using hknres
  have hdpos : 1 ≤ d k := by
    have hdeq := hinv.deg_eq k
    rw [inDeg0_eq_countP g hk ha k] at hdeq
    have hle := countP_le_keys g hk hinv.res_nodup k
    have hne0 : d k ≠ 0 := by
      intro h0
      rcases hinv.zero_in k hkkeys h0 with h | h
      · simp at h
      · exact hknres' h
    omega
  have hnall : ¬ ∀ u ∈ keysOf g, hasEdge g u k = true → u ∈ res := by
    intro hall
    have := countP_keys_le g hk hinv.res_nodup k hall
    have hdeq := hinv.deg_eq k
    rw [inDeg0_eq_countP g hk ha k] at hdeq
    omega
  push_neg at hnall
  obtain ⟨u, hukeys, huedge, hunres⟩ := hnall
  exact ⟨u, List.mem_filter.mpr ⟨hukeys, by simpa using hunres⟩, huedge⟩

theorem foldl_append_no_new {res keys : List String}
    (h : ∀ k ∈ keys, k ∈ res) :
    keys.foldl (fun r node => if node ∈ r then r else r ++ [node]) res =
      res := by
  induction keys with
  | nil => rfl
  | cons k ks ih =>
    rw [List.foldl_cons, if_pos (h k (List.mem_cons_self _ _))]
    exact ih (fun k' hk' => h k' (List.mem_cons_of_mem _ hk'))

/-- A graph whose edges strictly decrease some rank function is acyclic. -/
theorem acyclic_of_rank (g : Graph) (rk : String → ℕ)
    (hdec : ∀ u v, hasEdge g u v = true → rk v < rk u) : Acyclic g := by
  have hrank : ∀ (l : List String) (a b : String),
      List.Chain (fun x y => hasEdge g x y = true) a (l ++ [b]) →
        rk b < rk a := by
    intro l
    induction l with
    | nil =>
      intro a b h
      rw [List.nil_append] at h
      have hab := List.chain_singleton.mp h
      exact hdec a b hab
    | cons x t ih =>
      intro a b h
      rw [List.cons_append, List.chain_cons] at h
      exact lt_trans (ih x b h.2) (hdec a x h.1)
  rintro ⟨v, l, hch⟩
  exact absurd (hrank l v v hch) (lt_irrefl _)

/-- The worked example graph of the claim: `main` imports `lib1`, which
imports `lib2`. -/
def exampleGraph : Graph := [("main", ["lib1"]), ("lib1", ["lib2"])]

theorem exampleGraph_edges {a b : String}
    (h : hasEdge exampleGraph a b = true) :
    (a = "main" ∧ b = "lib1") ∨ (a = "lib1" ∧ b = "lib2") := by
  rcases hasEdge_iff.mp h with ⟨adj, hl, hb⟩
  unfold exampleGraph at hl
  simp only [lookupG] at hl
  split_ifs at hl with h1 h2
  · obtain rfl := Option.some_injective _ hl.symm
    exact Or.inl ⟨h1, List.mem_singleton.mp hb⟩
  · obtain rfl := Option.some_injective _ hl.symm
    exact Or.inr ⟨h2, List.mem_singleton.mp hb⟩

theorem exampleGraph_acyclic : Acyclic exampleGraph := by
  refine acyclic_of_rank exampleGraph
    (fun s => if s = "main" then 2 else if s = "lib1" then 1 else 0) ?_
  intro u v huv
  rcases exampleGraph_edges huv with ⟨rfl, rfl⟩ | ⟨rfl, rfl⟩ <;> decide

/-- C3, counterexample: on the claim's own example graph (edges
`main→lib1`, `lib1→lib2`), `topological_sort` returns
`[main, lib1, lib2]` — each dependent BEFORE its dependency — not the
claimed dependency-first order `[lib2, lib1, main]`. -/
theorem claim_C3_counterexample :
    topological_sort exampleGraph = ["main", "lib1", "lib2"] ∧
      (["main", "lib1", "lib2"] : List String) ≠ ["lib2", "lib1", "main"] := by
  constructor
  · decide
  · decide

/-- C3, amended: for every dependency graph with deduplicated keys and
adjacency lists and no dependency cycle, every key occurs in the output of
`topological_sort`, and for every edge u→v (u depends on v) u appears
BEFORE v (dependents first); the example graph therefore yields
`[main, lib1, lib2]`. -/
theorem claim_C3_amended (g : Graph) (hk : (keysOf g).Nodup)
    (ha : ∀ p ∈ g, p.2.Nodup) (hacy : Acyclic g) :
    (∀ k ∈ keysOf g, k ∈ topological_sort g) ∧
    (∀ u v, hasEdge g u v = true → ∀ r1 r2,
      topological_sort g = r1 ++ v :: r2 → u ∈ r1) := by
  have hinit := kahnInv_init g hk ha
  have hmu := mu_init_le g
  have hmaster := kahnLoop_master g hk ha (kahnFuel g) _ _ _ hinit hmu
  have hcomp := kahn_complete g hk ha hacy hmaster
  have htop : topological_sort g = (keysOf g).foldl
      (fun r node => if node ∈ r then r else r ++ [node])
      (kahnLoop g (kahnFuel g)
        ((keysOf g).filter (fun k => buildInDegree g k == 0))
        (buildInDegree g) []).1 := rfl
  rw [htop, foldl_append_no_new hcomp]
  exact ⟨hcomp, hmaster.ordered⟩

/-- C3, witness: the amended theorem applied to the example graph. -/
theorem claim_C3_witness :
    (∀ k ∈ keysOf exampleGraph, k ∈ topological_sort exampleGraph) ∧
    (∀ u v, hasEdge exampleGraph u v = true → ∀ r1 r2,
      topological_sort exampleGraph = r1 ++ v :: r2 → u ∈ r1) :=
  claim_C3_amended exampleGraph (by decide) (by decide) exampleGraph_acyclic

/-! ## `FalsePositiveHandler` (false_positive_handler.py)

Python values flowing through the handler (issue dicts, locations,
JSON-compatible export data) are embedded as `PyVal`. Conventions:
* Python `==` is `pyEq`; it matches Python's semantics (`True == 1`,
  cross-type comparisons are `False`, containers compare structurally and
  dicts ignore insertion order).
* `.get` on the modelled dicts is `pyGet`/`pyGetD` (absent keys give
  `None`); `.get` on a non-dict raises in Python, so every theorem about
  code paths that could receive a non-dict carries a well-formedness
  hypothesis keeping the modelled inputs inside Python's non-raising
  domain.
* Python floats appear only as suppression confidences
  `min(1.0, count / fp_count)` compared against a threshold; the claims
  exercise only exactly-representable values (`1.0 >= 0.7`), so these are
  embedded as exact rationals. -/

inductive PyVal where
  | null
  | bool (b : Bool)
  | int (n : Int)
  | str (s : String)
  | list (xs : List PyVal)
  | dict (kvs : List (String × PyVal))
  deriving Inhabited

mutual

/-- Structural Python `==` on arbitrary values, used by `pyEq` for
container arguments. -/
def pyEqDeep : PyVal → PyVal → Bool
  | .null, .null => true
  | .bool a, .bool b => a == b
  | .bool a, .int n => (if a then (1 : Int) else 0) == n
  | .int n, .bool a => n == (if a then (1 : Int) else 0)
  | .int a, .int b => a == b
  | .str a, .str b => a == b
  | .list xs, .list ys => pyEqList xs ys
  | .dict xs, .dict ys => xs.length == ys.length && pyEqEntries xs ys
  | _, _ => false

/-- Elementwise list equality. -/
def pyEqList : List PyVal → List PyVal → Bool
  | [], [] => true
  | x :: xs, y :: ys => pyEqDeep x y && pyEqList xs ys
  | _, _ => false

/-- Each entry of the first dict matches the second dict (by key lookup,
so insertion order is irrelevant, as for Python dicts). -/
def pyEqEntries : List (String × PyVal) → List (String × PyVal) → Bool
  | [], _ => true
  | (k, v) :: rest, ys => pyEqLookup k v ys && pyEqEntries rest ys

/-- `ys[k] == v` for the first binding of `k` in `ys`. -/
def pyEqLookup (k : String) (v : PyVal) :
    List (String × PyVal) → Bool
  | [] => false
  | (k2, w) :: rest => if k = k2 then pyEqDeep v w else pyEqLookup k v rest

end

/-- Python `==`. Scalar comparisons are written out directly (so that
concrete evaluations reduce definitionally); container comparisons defer
to the structural `pyEqDeep`. -/
def pyEq (a b : PyVal) : Bool :=
  match a, b with
  | .null, .null => true
  | .bool x, .bool y => x == y
  | .bool x, .int n => (if x then (1 : Int) else 0) == n
  | .int n, .bool x => n == (if x then (1 : Int) else 0)
  | .int x, .int y => x == y
  | .str x, .str y => x == y
  | .list xs, .list ys => pyEqDeep (.list xs) (.list ys)
  | .dict xs, .dict ys => pyEqDeep (.dict xs) (.dict ys)
  | _, _ => false

/-- Python truthiness. -/
def pyTruthy : PyVal → Bool
  | .null => false
  | .bool b => b
  | .int n => n != 0
  | .str s => s ≠ ""
  | .list xs => !xs.isEmpty
  | .dict kvs => !kvs.isEmpty

/-- Python `a or b` (returns `a` when truthy, else `b`). -/
def pyOr (a b : PyVal) : PyVal := if pyTruthy a then a else b

/-- First binding of `k` in an association list (Python dict lookup). -/
def lookupKV : List (String × PyVal) → String → Option PyVal
  | [], _ => Option.none
  | (k2, w) :: rest, k => if k = k2 then some w else lookupKV rest k

/-- `d.get(k, default)` for a modelled dict. -/
def pyGetD (v : PyVal) (k : String) (dflt : PyVal) : PyVal :=
  match v with
  | .dict kvs => (lookupKV kvs k).getD dflt
  | _ => dflt

/-- `d.get(k)` (default `None`). -/
def pyGet (v : PyVal) (k : String) : PyVal := pyGetD v k .null

/-- Python dict assignment `st[k] = x` on an association list: replaces in
place the first binding of `k`, otherwise appends (insertion order). -/
def setA {β : Type} : List (String × β) → String → β → List (String × β)
  | [], k, x => [(k, x)]
  | (k2, w) :: rest, k, x =>
    if k = k2 then (k2, x) :: rest else (k2, w) :: setA rest k x

/-- `defaultdict(list)` append `st[k].append(x)`. -/
def appendA {β : Type} (st : List (String × List β)) (k : String) (x : β) :
    List (String × List β) :=
  setA st k (((List.lookup k st).getD []) ++ [x])

/-- The `FalsePositiveReport` dataclass. Field types follow the values the
module itself stores (Python dataclasses do not validate types at
runtime; every value constructed by this module has these types). -/
structure FalsePositiveReport where
  issue_id : String
  issue_type : String
  contract_hash : String
  location : PyVal
  reason : String
  reported_by : Option String
  reported_at : Option String
  verified : Bool

/-- One `(reason, location_type, count)` entry of a learning pattern. -/
structure PatternEntry where
  reason : String
  location_type : PyVal
  count : Int

/-- Per-issue-type learning pattern
(`{"false_positive_count": _, "patterns": [...]}`). -/
structure LearningPattern where
  false_positive_count : Int
  patterns : List PatternEntry

/-- The mutable state of a `FalsePositiveHandler` instance. -/
structure FalsePositiveHandler where
  false_positives : List (String × List FalsePositiveReport)
  issue_patterns : List (String × LearningPattern)
  learning_data : List (String × List PyVal)

/-- A freshly constructed handler. -/
def freshHandler : FalsePositiveHandler := ⟨[], [], []⟩

/-- `FalsePositiveHandler.report_false_positive`. The caller supplies the
clock value `now` (the source's `datetime.utcnow().isoformat()`). -/
def report_false_positive (h : FalsePositiveHandler)
    (issue_id issue_type contract_hash : String) (location : PyVal)
    (reason : String) (reported_by : Option String) (now : String) :
    FalsePositiveHandler × Bool :=
  let report : FalsePositiveReport :=
    ⟨issue_id, issue_type, contract_hash, location, reason, reported_by,
      some now, false⟩
  let key := issue_type ++ ":" ++ contract_hash
  (⟨appendA h.false_positives key report,
    h.issue_patterns,
    appendA h.learning_data issue_type
      (.dict [("contract_hash", .str contract_hash),
              ("location", location),
              ("reason", .str reason),
              ("reported_at", .str now)])⟩, true)

/-- `FalsePositiveHandler._location_matches`. The second
`if line1 and line2` of the source repeats the first branch's guard, so
the "range match (within 5 lines)" branch below it is unreachable; it is
embedded verbatim (its integer subtraction would raise on non-integer
lines, but it never executes). -/
def location_matches (loc1 loc2 : PyVal) : Bool :=
  let line1 := pyOr (pyGet loc1 "line") (pyGet loc1 "lineNumber")
  let line2 := pyOr (pyGet loc2 "line") (pyGet loc2 "lineNumber")
  if pyTruthy line1 && pyTruthy line2 then pyEq line1 line2
  else if pyTruthy line1 && pyTruthy line2 then
    match line1, line2 with
    | .int a, .int b => decide ((a - b).natAbs ≤ 5)
    | _, _ => false
  else false

/-- `FalsePositiveHandler.is_false_positive`. -/
def is_false_positive (h : FalsePositiveHandler)
    (issue_type contract_hash : String) (location : PyVal) : Bool :=
  let key := issue_type ++ ":" ++ contract_hash
  match List.lookup key h.false_positives with
  | Option.none => false
  | some reports =>
    reports.any (fun r => r.verified && location_matches r.location location)

/-- Scan for the first pattern entry whose reason matches, incrementing its
count (the `for p in ...: if p.get("reason") == ...` loop of
`_update_learning_pattern`). -/
def bumpPattern (reason : String) :
    List PatternEntry → Option (List PatternEntry)
  | [] => Option.none
  | p :: ps =>
    if p.reason = reason then some ({ p with count := p.count + 1 } :: ps)
    else (bumpPattern reason ps).map (p :: ·)

/-- `FalsePositiveHandler._update_learning_pattern`. -/
def update_learning_pattern (pats : List (String × LearningPattern))
    (report : FalsePositiveReport) : List (String × LearningPattern) :=
  let cur := (List.lookup report.issue_type pats).getD ⟨0, []⟩
  let cur2 : LearningPattern :=
    { cur with false_positive_count := cur.false_positive_count + 1 }
  let cur3 : LearningPattern :=
    match bumpPattern report.reason cur2.patterns with
    | some ps => { cur2 with patterns := ps }
    | Option.none =>
      { cur2 with patterns := cur2.patterns ++
          [⟨report.reason, pyGet report.location "type", 1⟩] }
  setA pats report.issue_type cur3

/-- Scan of `verify_false_positive`'s report loop: mark verified the first
report whose location matches, returning the updated list and that
report. -/
def verifyScan (location : PyVal) :
    List FalsePositiveReport →
      Option (List FalsePositiveReport × FalsePositiveReport)
  | [] => Option.none
  | r :: rs =>
    if location_matches r.location location then
      some ({ r with verified := true } :: rs, { r with verified := true })
    else (verifyScan location rs).map (fun p => (r :: p.1, p.2))

/-- `FalsePositiveHandler.verify_false_positive`. -/
def verify_false_positive (h : FalsePositiveHandler)
    (issue_type contract_hash : String) (location : PyVal) :
    FalsePositiveHandler × Bool :=
  let key := issue_type ++ ":" ++ contract_hash
  match List.lookup key h.false_positives with
  | Option.none => (h, false)
  | some reports =>
    match verifyScan location reports with
    | Option.none => (h, false)
    | some (reports2, rep) =>
      (⟨setA h.false_positives key reports2,
        update_learning_pattern h.issue_patterns rep,
        h.learning_data⟩, true)

/-- The pattern loop of `should_suppress_issue`: for each entry with a
matching location kind, suppress when
`min(1.0, count / fp_count) >= threshold` (floats embedded as exact
rationals). -/
def suppressScan (location_type : PyVal) (fp_count : Int)
    (threshold : ℚ) : List PatternEntry → Bool
  | [] => false
  | p :: ps =>
    if pyEq p.location_type location_type then
      if threshold ≤ min 1 ((p.count : ℚ) / (fp_count : ℚ)) then true
      else suppressScan location_type fp_count threshold ps
    else suppressScan location_type fp_count threshold ps

/-- `FalsePositiveHandler.should_suppress_issue`
(default `confidence_threshold=0.7`, i.e. `7/10`). -/
def should_suppress_issue (h : FalsePositiveHandler)
    (issue_type contract_hash : String) (location : PyVal)
    (confidence_threshold : ℚ) : Bool :=
  if is_false_positive h issue_type contract_hash location then true
  else
    match List.lookup issue_type h.issue_patterns with
    | Option.none => false
    | some pattern =>
      if 3 ≤ pattern.false_positive_count then
        suppressScan (pyGet location "type") pattern.false_positive_count
          confidence_threshold pattern.patterns
      else false

/-- Issue type extracted by `filter_false_positives`
(`issue.get("type") or issue.get("check")`). The theorems' well-formedness
hypotheses keep this a string, as Python's later f-string/dict uses
assume. -/
def issueTypeOf (issue : PyVal) : String :=
  match pyOr (pyGet issue "type") (pyGet issue "check") with
  | .str s => s
  | _ => ""

/-- Location extracted by `filter_false_positives` (`issue.get("location")
or {"line": issue.get("lineNumber"), "type": "line"}`). -/
def issueLocationOf (issue : PyVal) : PyVal :=
  pyOr (pyGet issue "location")
    (.dict [("line", pyGet issue "lineNumber"), ("type", .str "line")])

/-- Whether `filter_false_positives` suppresses a given issue. -/
def issueSuppressed (h : FalsePositiveHandler) (contract_hash : String)
    (issue : PyVal) : Bool :=
  should_suppress_issue h (issueTypeOf issue) contract_hash
    (issueLocationOf issue) (7 / 10)

/-- The issue dict after the in-place suppression marking
(`issue["suppressed"] = True; issue["suppression_reason"] = ...`). -/
def markSuppressed (issue : PyVal) : PyVal :=
  match issue with
  | .dict kvs =>
    .dict (setA (setA kvs "suppressed" (.bool true))
      "suppression_reason" (.str "Known false positive"))
  | v => v

/-- `FalsePositiveHandler.filter_false_positives`. The source mutates the
caller's issue dicts in place and returns a new `filtered` list; the
embedding returns the pair (argument list after the call, returned
list). -/
def filter_false_positives (h : FalsePositiveHandler)
    (issues : List PyVal) (contract_hash : String) :
    List PyVal × List PyVal :=
  match issues with
  | [] => ([], [])
  | issue :: rest =>
    let p := filter_false_positives h rest contract_hash
    if issueSuppressed h contract_hash issue then
      (markSuppressed issue :: p.1, p.2)
    else (issue :: p.1, issue :: p.2)

/-- Well-formedness of an issue record: a dict whose extracted type is a
string and whose extracted location is a dict — exactly the shapes on
which the Python code performs `.get`/f-string operations without
raising. -/
def issueOk (issue : PyVal) : Bool :=
  (match issue with | .dict _ => true | _ => false) &&
  (match pyOr (pyGet issue "type") (pyGet issue "check") with
    | .str _ => true | _ => false) &&
  (match issueLocationOf issue with | .dict _ => true | _ => false)

/-- Encoding of an optional string field of a report (`asdict`). -/
def optStr : Option String → PyVal
  | Option.none => .null
  | some s => .str s

/-- `dataclasses.asdict(report)`: field order is declaration order. -/
def encodeReport (r : FalsePositiveReport) : PyVal :=
  .dict [("issue_id", .str r.issue_id),
         ("issue_type", .str r.issue_type),
         ("contract_hash", .str r.contract_hash),
         ("location", r.location),
         ("reason", .str r.reason),
         ("reported_by", optStr r.reported_by),
         ("reported_at", optStr r.reported_at),
         ("verified", .bool r.verified)]

/-- Decoding of an optional-string field for `FalsePositiveReport(**r)`:
absent means the dataclass default `None`. -/
def decodeOptStr : Option PyVal → Option (Option String)
  | Option.none => some Option.none
  | some .null => some Option.none
  | some (.str s) => some (some s)
  | some _ => Option.none

/-- `FalsePositiveReport(**r)`: requires a dict whose keys are field names
with the five required fields present (a missing required field or an
unexpected key raises `TypeError`). Python does not validate field types;
the decoder requires the types `asdict` produces, which every export of
this module satisfies. -/
def decodeReport : PyVal → Option FalsePositiveReport
  | .dict kvs =>
    if (kvs.all (fun kv => kv.1 ∈ ["issue_id", "issue_type",
        "contract_hash", "location", "reason", "reported_by",
        "reported_at", "verified"])) then
      match lookupKV kvs "issue_id", lookupKV kvs "issue_type",
          lookupKV kvs "contract_hash", lookupKV kvs "location",
          lookupKV kvs "reason" with
      | some (.str iid), some (.str ity), some (.str ch), some loc,
          some (.str rsn) =>
        match decodeOptStr (lookupKV kvs "reported_by"),
            decodeOptStr (lookupKV kvs "reported_at") with
        | some rby, some rat =>
          match lookupKV kvs "verified" with
          | Option.none => some ⟨iid, ity, ch, loc, rsn, rby, rat, false⟩
          | some (.bool b) => some ⟨iid, ity, ch, loc, rsn, rby, rat, b⟩
          | some _ => Option.none
        | _, _ => Option.none
      | _, _, _, _, _ => Option.none
    else Option.none
  | _ => Option.none

/-- One exported learning-pattern entry. -/
def encodeEntry (p : PatternEntry) : PyVal :=
  .dict [("reason", .str p.reason),
         ("location_type", p.location_type),
         ("count", .int p.count)]

def decodeEntry : PyVal → Option PatternEntry
  | .dict [("reason", .str rsn), ("location_type", lt), ("count", .int c)] =>
    some ⟨rsn, lt, c⟩
  | _ => Option.none

def decodeEntryList : List PyVal → Option (List PatternEntry)
  | [] => some []
  | v :: vs =>
    match decodeEntry v, decodeEntryList vs with
    | some p, some ps => some (p :: ps)
    | _, _ => Option.none

/-- Exported learning patterns (`self.issue_patterns` as a JSON object). -/
def encodeLearning (pats : List (String × LearningPattern)) : PyVal :=
  .dict (pats.map (fun kv => (kv.1,
    PyVal.dict [("false_positive_count", .int kv.2.false_positive_count),
                ("patterns", .list (kv.2.patterns.map encodeEntry))])))

def decodeLearningOne : PyVal → Option LearningPattern
  | .dict [("false_positive_count", .int c), ("patterns", .list ps)] =>
    (decodeEntryList ps).map (fun l => ⟨c, l⟩)
  | _ => Option.none

def decodeLearningList : List (String × PyVal) →
    Option (List (String × LearningPattern))
  | [] => some []
  | (k, v) :: kvs =>
    match decodeLearningOne v, decodeLearningList kvs with
    | some lp, some rest => some ((k, lp) :: rest)
    | _, _ => Option.none

/-- Decoding of the imported `learning_patterns` value. The source assigns
the raw deserialized dict without validation (ill-typed entries would only
fail at their first later use); the typed embedding validates the exported
shape here instead. -/
def decodeLearning : PyVal → Option (List (String × LearningPattern))
  | .dict kvs => decodeLearningList kvs
  | _ => Option.none

/-- `FalsePositiveHandler.export_false_positives`, producing the JSON
value (the `json.dumps`/`json.loads` text round trip of the external
`json` module is the identity on these values and is not modelled). The
caller supplies the clock value `now`. -/
def export_false_positives (h : FalsePositiveHandler) (now : String) :
    PyVal :=
  .dict [("false_positives",
          .dict (h.false_positives.map (fun kv =>
            (kv.1, PyVal.list (kv.2.map encodeReport))))),
         ("learning_patterns", encodeLearning h.issue_patterns),
         ("exported_at", .str now)]

def decodeReportList : List PyVal → Option (List FalsePositiveReport)
  | [] => some []
  | v :: vs =>
    match decodeReport v, decodeReportList vs with
    | some r, some rs => some (r :: rs)
    | _, _ => Option.none

/-- The `for key, reports_data in data.get("false_positives", {}).items()`
loop of `import_false_positives`: each valid group is assigned into the
store as it is reached; the first invalid group raises, leaving the
earlier groups assigned. -/
def importGroups : List (String × PyVal) → FalsePositiveHandler →
    FalsePositiveHandler × Option String
  | [], h => (h, Option.none)
  | (key, rd) :: rest, h =>
    match rd with
    | .list rvs =>
      match decodeReportList rvs with
      | some reports =>
        importGroups rest
          { h with false_positives := setA h.false_positives key reports }
      | Option.none => (h, some "TypeError: bad report fields")
    | _ => (h, some "TypeError: reports not a list")

/-- `FalsePositiveHandler.import_false_positives` on the parsed JSON value
(`json.loads` of the input string; an unparseable string raises with the
state untouched and is not modelled further). Returns the handler state
after the call together with the raised exception, if any — on failure the
state may already hold the groups imported before the failing entry. -/
def import_false_positives (data : PyVal) (h : FalsePositiveHandler) :
    FalsePositiveHandler × Option String :=
  match data with
  | .dict _ =>
    match pyGetD data "false_positives" (.dict []) with
    | .dict groups =>
      match importGroups groups h with
      | (h2, some e) => (h2, some e)
      | (h2, Option.none) =>
        match decodeLearning (pyGetD data "learning_patterns" (.dict [])) with
        | some ps => ({ h2 with issue_patterns := ps }, Option.none)
        | Option.none => (h2, some "TypeError: bad learning patterns")
    | _ => (h, some "AttributeError: items on non-dict")
  | _ => (h, some "AttributeError: get on non-dict")

/-- A location dict `{"line": l, "type": k}`. -/
def locOf (l : Int) (k : String) : PyVal :=
  .dict [("line", .int l), ("type", .str k)]

theorem key_ne {T h h' : String} (hne : h ≠ h') :
    (T ++ ":" ++ h) ≠ (T ++ ":" ++ h') := by
  intro heq
  apply hne
  have hd := congrArg String.data heq
  rw [String.data_append, String.data_append] at hd
  exact String.ext (List.append_cancel_left hd)

theorem locOf_matches {l : Int} {k k' : String} (hl : l ≠ 0) :
    location_matches (locOf l k) (locOf l k') = true := by
  unfold location_matches locOf
  have hline : pyOr (pyGet (PyVal.dict [("line", .int l), ("type", .str k)])
      "line") (pyGet (PyVal.dict [("line", .int l), ("type", .str k)])
      "lineNumber") = .int l := by
    simp [pyOr, pyGet, pyGetD, lookupKV, pyTruthy, hl]
  have hline' : pyOr (pyGet (PyVal.dict [("line", .int l), ("type", .str k')])
      "line") (pyGet (PyVal.dict [("line", .int l), ("type", .str k')])
      "lineNumber") = .int l := by
    simp [pyOr, pyGet, pyGetD, lookupKV, pyTruthy, hl]
  rw [hline, hline']
  simp [pyTruthy, pyEq, hl]

theorem setA_absent {β : Type} {st : List (String × β)} {k : String}
    (h : List.lookup k st = Option.none) (v : β) :
    setA st k v = st ++ [(k, v)] := by
  induction st with
  | nil => rfl
  | cons p rest ih =>
    obtain ⟨k2, w⟩ := p
    rw [List.lookup] at h
    rcases hbe : (k == k2) with _ | _
    · rw [hbe] at h
      rw [setA, if_neg (by simpa using hbe), List.cons_append, ih h]
    · rw [hbe] at h
      simp at h
  
theorem lookup_append_absent {β : Type} {st : List (String × β)}
    {k : String} (h : List.lookup k st = Option.none)
    (l : List (String × β)) :
    List.lookup k (st ++ l) = List.lookup k l := by
  induction st with
  | nil => rfl
  | cons p rest ih =>
    obtain ⟨k2, w⟩ := p
    rw [List.lookup] at h
    rcases hbe : (k == k2) with _ | _
    · rw [hbe] at h
      rw [List.cons_append, List.lookup, hbe]
      exact ih h
    · rw [hbe] at h
      simp at h

theorem appendA_absent {β : Type} {st : List (String × List β)}
    {k : String} (h : List.lookup k st = Option.none) (x : β) :
    appendA st k x = st ++ [(k, [x])] := by
  rw [appendA, h]
  exact setA_absent h [x]

theorem setA_mid {β : Type} {pre : List (String × β)} {k : String}
    (h : List.lookup k pre = Option.none) (a b : β)
    (rest : List (String × β)) :
    setA (pre ++ (k, a) :: rest) k b = pre ++ (k, b) :: rest := by
  induction pre with
  | nil => simp [setA]
  | cons p pr ih =>
    obtain ⟨k2, w⟩ := p
    rw [List.lookup] at h
    rcases hbe : (k == k2) with _ | _
    · rw [hbe] at h
      rw [List.cons_append, setA, if_neg (by simpa using hbe),
        List.cons_append, ih h]
    · rw [hbe] at h
      simp at h

/-- Reporting a false positive under a fresh `(type, fingerprint)` key and
then verifying it at the same location. -/
def reportThenVerify (h : FalsePositiveHandler)
    (iid T ch : String) (loc : PyVal) (reason now : String) :
    FalsePositiveHandler :=
  (verify_false_positive
    (report_false_positive h iid T ch loc reason Option.none now).1
    T ch loc).1

/-- Effect of `reportThenVerify` on a state without the key: the verified
report is appended under the new key and the learning pattern folds it
in. -/
theorem reportThenVerify_eq (h : FalsePositiveHandler)
    (iid T ch : String) (l : Int) (kind reason now : String)
    (hkey : List.lookup (T ++ ":" ++ ch) h.false_positives = Option.none)
    (hl : l ≠ 0) :
    reportThenVerify h iid T ch (locOf l kind) reason now =
      ⟨h.false_positives ++ [(T ++ ":" ++ ch,
          [⟨iid, T, ch, locOf l kind, reason, Option.none, some now, true⟩])],
        update_learning_pattern h.issue_patterns
          ⟨iid, T, ch, locOf l kind, reason, Option.none, some now, true⟩,
        appendA h.learning_data T
          (.dict [("contract_hash", .str ch),
                  ("location", locOf l kind),
                  ("reason", .str reason),
                  ("reported_at", .str now)])⟩ := by
  unfold reportThenVerify report_false_positive
  simp only
  rw [appendA_absent hkey]
  unfold verify_false_positive
  simp only
  rw [lookup_append_absent hkey, List.lookup, beq_self_eq_true]
  simp only [verifyScan, locOf_matches hl, if_true]
  rw [setA_mid hkey]

/-- C5: with exactly two verified false positives of type `T` sharing a
reason and location kind, a new matching issue on a fresh fingerprint is
not suppressed at the default threshold; after a third verified report it
is (confidence 3/3 = 1 ≥ 0.7). -/
theorem claim_C5_theorem
    (T reason kind id1 id2 id3 n1 n2 n3 : String)
    (h1 h2 h3 hN : String) (l1 l2 l3 lN : Int)
    (hd12 : h1 ≠ h2) (hd13 : h1 ≠ h3) (hd23 : h2 ≠ h3)
    (hdN1 : hN ≠ h1) (hdN2 : hN ≠ h2) (hdN3 : hN ≠ h3)
    (hl1 : l1 ≠ 0) (hl2 : l2 ≠ 0) (hl3 : l3 ≠ 0) :
    should_suppress_issue
      (reportThenVerify
        (reportThenVerify freshHandler id1 T h1 (locOf l1 kind) reason n1)
        id2 T h2 (locOf l2 kind) reason n2)
      T hN (locOf lN kind) (7 / 10) = false ∧
    should_suppress_issue
      (reportThenVerify
        (reportThenVerify
          (reportThenVerify freshHandler id1 T h1 (locOf l1 kind) reason n1)
          id2 T h2 (locOf l2 kind) reason n2)
        id3 T h3 (locOf l3 kind) reason n3)
      T hN (locOf lN kind) (7 / 10) = true := by
  have hne21 : ((T ++ ":" ++ h2) == (T ++ ":" ++ h1)) = false :=
    beq_eq_false_iff_ne.mpr (key_ne (Ne.symm hd12))
  have hne31 : ((T ++ ":" ++ h3) == (T ++ ":" ++ h1)) = false :=
    beq_eq_false_iff_ne.mpr (key_ne (Ne.symm hd13))
  have hne32 : ((T ++ ":" ++ h3) == (T ++ ":" ++ h2)) = false :=
    beq_eq_false_iff_ne.mpr (key_ne (Ne.symm hd23))
  have hneN1 : ((T ++ ":" ++ hN) == (T ++ ":" ++ h1)) = false :=
    beq_eq_false_iff_ne.mpr (key_ne hdN1)
  have hneN2 : ((T ++ ":" ++ hN) == (T ++ ":" ++ h2)) = false :=
    beq_eq_false_iff_ne.mpr (key_ne hdN2)
  have hneN3 : ((T ++ ":" ++ hN) == (T ++ ":" ++ h3)) = false :=
    beq_eq_false_iff_ne.mpr (key_ne hdN3)
  have hr1 : ∀ b : Bool, (⟨id1, T, h1, locOf l1 kind, reason, Option.none,
      some n1, b⟩ : FalsePositiveReport).reason = reason := fun _ => rfl
  have hs2 : reportThenVerify freshHandler id1 T h1 (locOf l1 kind)
      reason n1 =
      ⟨[(T ++ ":" ++ h1,
          [⟨id1, T, h1, locOf l1 kind, reason, Option.none, some n1, true⟩])],
        [(T, ⟨1, [⟨reason, PyVal.str kind, 1⟩]⟩)],
        [(T, [.dict [("contract_hash", .str h1),
                     ("location", locOf l1 kind),
                     ("reason", .str reason),
                     ("reported_at", .str n1)]])]⟩ := by
    rw [reportThenVerify_eq freshHandler id1 T h1 l1 kind reason n1 rfl hl1]
    simp only [freshHandler]
    have hpat : update_learning_pattern []
        ⟨id1, T, h1, locOf l1 kind, reason, Option.none, some n1, true⟩ =
        [(T, ⟨1, [⟨reason, PyVal.str kind, 1⟩]⟩)] := by
      unfold update_learning_pattern
      simp [List.lookup, bumpPattern, setA, locOf, pyGet, pyGetD, lookupKV]
    rw [hpat]
    simp [appendA, setA, List.lookup]
  have hs4 : reportThenVerify
      (reportThenVerify freshHandler id1 T h1 (locOf l1 kind) reason n1)
      id2 T h2 (locOf l2 kind) reason n2 =
      ⟨[(T ++ ":" ++ h1,
          [⟨id1, T, h1, locOf l1 kind, reason, Option.none, some n1, true⟩]),
        (T ++ ":" ++ h2,
          [⟨id2, T, h2, locOf l2 kind, reason, Option.none, some n2, true⟩])],
        [(T, ⟨2, [⟨reason, PyVal.str kind, 2⟩]⟩)],
        [(T, [.dict [("contract_hash", .str h1),
                     ("location", locOf l1 kind),
                     ("reason", .str reason),
                     ("reported_at", .str n1)],
              .dict [("contract_hash", .str h2),
                     ("location", locOf l2 kind),
                     ("reason", .str reason),
                     ("reported_at", .str n2)]])]⟩ := by
    rw [hs2]
    rw [reportThenVerify_eq _ id2 T h2 l2 kind reason n2
      (by simp [List.lookup, hne21]) hl2]
    have hpat : update_learning_pattern
        [(T, ⟨1, [⟨reason, PyVal.str kind, 1⟩]⟩)]
        ⟨id2, T, h2, locOf l2 kind, reason, Option.none, some n2, true⟩ =
        [(T, ⟨2, [⟨reason, PyVal.str kind, 2⟩]⟩)] := by
      unfold update_learning_pattern
      simp [List.lookup, bumpPattern, setA]
    rw [hpat]
    have hld : appendA
        [(T, [PyVal.dict [("contract_hash", .str h1),
                     ("location", locOf l1 kind),
                     ("reason", .str reason),
                     ("reported_at", .str n1)]])] T
        (.dict [("contract_hash", .str h2),
                ("location", locOf l2 kind),
                ("reason", .str reason),
                ("reported_at", .str n2)]) =
        [(T, [PyVal.dict [("contract_hash", .str h1),
                     ("location", locOf l1 kind),
                     ("reason", .str reason),
                     ("reported_at", .str n1)],
              PyVal.dict [("contract_hash", .str h2),
                     ("location", locOf l2 kind),
                     ("reason", .str reason),
                     ("reported_at", .str n2)]])] := by
      simp [appendA, List.lookup, setA]
    rw [hld]
    simp
  constructor
  · rw [hs4]
    unfold should_suppress_issue is_false_positive
    simp [List.lookup, hneN1, hneN2]
  · have hs6 : reportThenVerify
        (reportThenVerify
          (reportThenVerify freshHandler id1 T h1 (locOf l1 kind) reason n1)
          id2 T h2 (locOf l2 kind) reason n2)
        id3 T h3 (locOf l3 kind) reason n3 =
        ⟨[(T ++ ":" ++ h1,
            [⟨id1, T, h1, locOf l1 kind, reason, Option.none, some n1, true⟩]),
          (T ++ ":" ++ h2,
            [⟨id2, T, h2, locOf l2 kind, reason, Option.none, some n2, true⟩]),
          (T ++ ":" ++ h3,
            [⟨id3, T, h3, locOf l3 kind, reason, Option.none, some n3, true⟩])],
          [(T, ⟨3, [⟨reason, PyVal.str kind, 3⟩]⟩)],
          [(T, [.dict [("contract_hash", .str h1),
                       ("location", locOf l1 kind),
                       ("reason", .str reason),
                       ("reported_at", .str n1)],
                .dict [("contract_hash", .str h2),
                       ("location", locOf l2 kind),
                       ("reason", .str reason),
                       ("reported_at", .str n2)],
                .dict [("contract_hash", .str h3),
                       ("location", locOf l3 kind),
                       ("reason", .str reason),
                       ("reported_at", .str n3)]])]⟩ := by
      rw [hs4]
      rw [reportThenVerify_eq _ id3 T h3 l3 kind reason n3
        (by simp [List.lookup, hne31, hne32]) hl3]
      have hpat : update_learning_pattern
          [(T, ⟨2, [⟨reason, PyVal.str kind, 2⟩]⟩)]
          ⟨id3, T, h3, locOf l3 kind, reason, Option.none, some n3, true⟩ =
          [(T, ⟨3, [⟨reason, PyVal.str kind, 3⟩]⟩)] := by
        unfold update_learning_pattern
        simp [List.lookup, bumpPattern, setA]
      rw [hpat]
      have hld : appendA
          [(T, [PyVal.dict [("contract_hash", .str h1),
                       ("location", locOf l1 kind),
                       ("reason", .str reason),
                       ("reported_at", .str n1)],
                PyVal.dict [("contract_hash", .str h2),
                       ("location", locOf l2 kind),
                       ("reason", .str reason),
                       ("reported_at", .str n2)]])] T
          (.dict [("contract_hash", .str h3),
                  ("location", locOf l3 kind),
                  ("reason", .str reason),
                  ("reported_at", .str n3)]) =
          [(T, [PyVal.dict [("contract_hash", .str h1),
                       ("location", locOf l1 kind),
                       ("reason", .str reason),
                       ("reported_at", .str n1)],
                PyVal.dict [("contract_hash", .str h2),
                       ("location", locOf l2 kind),
                       ("reason", .str reason),
                       ("reported_at", .str n2)],
                PyVal.dict [("contract_hash", .str h3),
                       ("location", locOf l3 kind),
                       ("reason", .str reason),
                       ("reported_at", .str n3)]])] := by
        simp [appendA, List.lookup, setA]
      rw [hld]
      simp
    rw [hs6]
    unfold should_suppress_issue is_false_positive
    simp only [List.lookup, hneN1, hneN2, hneN3, beq_self_eq_true]
    simp [suppressScan, pyEq, pyGet, pyGetD, lookupKV, locOf]
    norm_num

/-- C5, witness: the suppression-threshold theorem at concrete data —
type `"T"`, reason `"r"`, location kind `"k"`, three distinct contract
hashes `"a"`, `"b"`, `"c"`, a fresh hash `"d"`, lines 1, 2, 3 and 9. -/
theorem claim_C5_witness :
    should_suppress_issue
      (reportThenVerify
        (reportThenVerify freshHandler "i1" "T" "a" (locOf 1 "k") "r" "t1")
        "i2" "T" "b" (locOf 2 "k") "r" "t2")
      "T" "d" (locOf 9 "k") (7 / 10) = false ∧
    should_suppress_issue
      (reportThenVerify
        (reportThenVerify
          (reportThenVerify freshHandler "i1" "T" "a" (locOf 1 "k") "r" "t1")
          "i2" "T" "b" (locOf 2 "k") "r" "t2")
        "i3" "T" "c" (locOf 3 "k") "r" "t3")
      "T" "d" (locOf 9 "k") (7 / 10) = true :=
  claim_C5_theorem "T" "r" "k" "i1" "i2" "i3" "t1" "t2" "t3" "a" "b" "c" "d"
    1 2 3 9 (by decide) (by decide) (by decide) (by decide) (by decide)
    (by decide) (by decide) (by decide) (by decide)

theorem filterFP_snd (h : FalsePositiveHandler) (issues : List PyVal)
    (ch : String) :
    (filter_false_positives h issues ch).2 =
      issues.filter (fun i => !(issueSuppressed h ch i)) := by
  induction issues with
  | nil => rfl
  | cons i rest ih =>
    rw [filter_false_positives, List.filter_cons]
    cases hsupp : issueSuppressed h ch i
    · simp [hsupp, ih]
    · simp [hsupp, ih]

theorem filterFP_fst (h : FalsePositiveHandler) (issues : List PyVal)
    (ch : String) :
    (filter_false_positives h issues ch).1 =
      issues.map (fun i =>
        if issueSuppressed h ch i then markSuppressed i else i) := by
  induction issues with
  | nil => rfl
  | cons i rest ih =>
    rw [filter_false_positives, List.map_cons]
    cases hsupp : issueSuppressed h ch i
    · simp [hsupp, ih]
    · simp [hsupp, ih]

theorem lookupKV_setA_self (kvs : List (String × PyVal)) (k : String)
    (x : PyVal) : lookupKV (setA kvs k x) k = some x := by
  induction kvs with
  | nil => simp [setA, lookupKV]
  | cons p rest ih =>
    obtain ⟨k2, w⟩ := p
    by_cases hk : k = k2
    · rw [setA, if_pos hk, lookupKV, if_pos hk]
    · rw [setA, if_neg hk, lookupKV, if_neg hk]
      exact ih

theorem lookupKV_setA_ne (kvs : List (String × PyVal)) {k k2 : String}
    (h : k2 ≠ k) (x : PyVal) :
    lookupKV (setA kvs k x) k2 = lookupKV kvs k2 := by
  induction kvs with
  | nil => simp [setA, lookupKV, h]
  | cons p rest ih =>
    obtain ⟨k3, w⟩ := p
    by_cases hk : k = k3
    · subst hk
      rw [setA, if_pos rfl, lookupKV, lookupKV, if_neg h, if_neg h]
    · rw [setA, if_neg hk, lookupKV, lookupKV]
      by_cases hk2 : k2 = k3
      · rw [if_pos hk2, if_pos hk2]
      · rw [if_neg hk2, if_neg hk2]
        exact ih

/-- The handler state used by the concrete counterexamples: one verified
false positive of type `"T"` at line 5 of unit `"h"`. -/
def suppressingState : FalsePositiveHandler :=
  (verify_false_positive
    (report_false_positive freshHandler "i1" "T" "h" (locOf 5 "line")
      "why" Option.none "t").1
    "T" "h" (locOf 5 "line")).1

/-- An issue of type `"T"` at line 5, suppressed under
`suppressingState`. -/
def suppressedIssue : PyVal :=
  .dict [("type", .str "T"), ("location", locOf 5 "line")]

/-- C4, counterexample: with one verified false positive on record,
`filter_false_positives` returns the empty list for a one-issue input —
the suppressed issue is dropped from the returned list, not retained
flagged. -/
theorem claim_C4_counterexample :
    (filter_false_positives suppressingState [suppressedIssue] "h").2 = [] ∧
      ([suppressedIssue] : List PyVal).length = 1 := by
  exact ⟨rfl, rfl⟩

/-- C4, amended: `filter_false_positives` returns exactly the
non-suppressed issues, unchanged and in order; suppressed issues are
omitted from the returned list (they are flagged in place on the caller's
list instead). The hypothesis keeps each issue inside the dict shapes the
Python code handles without raising. -/
theorem claim_C4_amended (h : FalsePositiveHandler) (issues : List PyVal)
    (ch : String) (_hok : issues.all issueOk = true) :
    (filter_false_positives h issues ch).2 =
      issues.filter (fun i => !(issueSuppressed h ch i)) :=
  filterFP_snd h issues ch

/-- C4, witness: the amended theorem applied to the concrete suppressed
issue. -/
theorem claim_C4_witness :
    (filter_false_positives suppressingState [suppressedIssue] "h").2 =
      [suppressedIssue].filter
        (fun i => !(issueSuppressed suppressingState "h" i)) :=
  claim_C4_amended suppressingState [suppressedIssue] "h" (by decide)

/-- C6: the `_location_matches` "within 5 lines" fallback is dead code —
its guard repeats the exact-match branch's guard — so a verify call two
lines away from the stored report (well within 5) matches nothing: the
state is unchanged and `False` is returned, although the claim requires a
match. -/
theorem claim_C6_theorem :
    location_matches (locOf 10 "line") (.dict [("line", .int 12)]) = false ∧
    ((10 : Int) - 12).natAbs ≤ 5 ∧
    verify_false_positive
      (report_false_positive freshHandler "i1" "reentrancy" "h"
        (locOf 10 "line") "why" Option.none "t").1
      "reentrancy" "h" (.dict [("line", .int 12)]) =
      ((report_false_positive freshHandler "i1" "reentrancy" "h"
        (locOf 10 "line") "why" Option.none "t").1, false) := by
  refine ⟨rfl, by decide, rfl⟩

/-- C10: `filter_false_positives` flags suppressed issues on the caller's
own list — the first component below is the argument list after the call —
adding `"suppressed"` and `"suppression_reason"` to each suppressed dict,
while the returned list holds exactly the non-suppressed members,
unchanged (the source appends the caller's dict objects themselves; object
identity is modelled as value preservation). -/
theorem claim_C10_theorem (h : FalsePositiveHandler) (issues : List PyVal)
    (ch : String) (hok : issues.all issueOk = true) :
    (filter_false_positives h issues ch).1 =
      issues.map (fun i =>
        if issueSuppressed h ch i then markSuppressed i else i) ∧
    (∀ i, i ∈ (filter_false_positives h issues ch).2 ↔
      (i ∈ issues ∧ issueSuppressed h ch i = false)) ∧
    (∀ i ∈ issues, issueSuppressed h ch i = true →
      pyGet (markSuppressed i) "suppressed" = .bool true ∧
      pyGet (markSuppressed i) "suppression_reason" =
        .str "Known false positive") := by
  refine ⟨filterFP_fst h issues ch, ?_, ?_⟩
  · intro i
    rw [filterFP_snd h issues ch, List.mem_filter]
    simp
  · intro i hi _
    have hok' := List.all_eq_true.mp hok i hi
    have hdict : ∃ kvs, i = .dict kvs := by
      rcases i with _ | b | n | s | xs | kvs
      · simp [issueOk] at hok'
      · simp [issueOk] at hok'
      · simp [issueOk] at hok'
      · simp [issueOk] at hok'
      · simp [issueOk] at hok'
      · exact ⟨kvs, rfl⟩
    obtain ⟨kvs, rfl⟩ := hdict
    unfold markSuppressed
    constructor
    · show (lookupKV (setA (setA kvs "suppressed" (.bool true))
        "suppression_reason" (.str "Known false positive"))
        "suppressed").getD PyVal.null = .bool true
      rw [lookupKV_setA_ne _
        (show "suppressed" ≠ "suppression_reason" from by decide) _,
        lookupKV_setA_self]
      rfl
    · show (lookupKV (setA (setA kvs "suppressed" (.bool true))
        "suppression_reason" (.str "Known false positive"))
        "suppression_reason").getD PyVal.null = .str "Known false positive"
      rw [lookupKV_setA_self]
      rfl

/-- C10, witness: applied to the concrete suppressed issue. -/
theorem claim_C10_witness :
    (filter_false_positives suppressingState [suppressedIssue] "h").1 =
      [suppressedIssue].map (fun i =>
        if issueSuppressed suppressingState "h" i then markSuppressed i
        else i) :=
  (claim_C10_theorem suppressingState [suppressedIssue] "h" (by decide)).1

/-- The report-group list that `import_false_positives` iterates over. -/
def importGroupsOf (data : PyVal) : List (String × PyVal) :=
  match data with
  | .dict _ =>
    match pyGetD data "false_positives" (.dict []) with
    | .dict gs => gs
    | _ => []
  | _ => []

theorem importGroups_frame (gs : List (String × PyVal))
    (h : FalsePositiveHandler) :
    (importGroups gs h).1.issue_patterns = h.issue_patterns ∧
      (importGroups gs h).1.learning_data = h.learning_data := by
  induction gs generalizing h with
  | nil => exact ⟨rfl, rfl⟩
  | cons g rest ih =>
    obtain ⟨key, rd⟩ := g
    cases rd with
    | list rvs =>
      rw [importGroups]
      cases hdec : decodeReportList rvs with
      | none => exact ⟨rfl, rfl⟩
      | some reports => exact ih _
    | null => exact ⟨rfl, rfl⟩
    | bool b => exact ⟨rfl, rfl⟩
    | int n => exact ⟨rfl, rfl⟩
    | str s => exact ⟨rfl, rfl⟩
    | dict kvs => exact ⟨rfl, rfl⟩

theorem importGroups_err_split (gs : List (String × PyVal))
    (h : FalsePositiveHandler) (e : String)
    (herr : (importGroups gs h).2 = some e) :
    ∃ pre post, gs = pre ++ post ∧
      importGroups pre h = ((importGroups gs h).1, Option.none) := by
  induction gs generalizing h with
  | nil => simp [importGroups] at herr
  | cons g rest ih =>
    obtain ⟨key, rd⟩ := g
    cases rd with
    | list rvs =>
      rw [importGroups] at herr ⊢
      cases hdec : decodeReportList rvs with
      | none =>
        exact ⟨[], (key, .list rvs) :: rest, rfl, rfl⟩
      | some reports =>
        rw [hdec] at herr
        obtain ⟨pre, post, hsplit, hpre⟩ := ih _ herr
        refine ⟨(key, .list rvs) :: pre, post, by simp [hsplit], ?_⟩
        rw [importGroups, hdec]
        exact hpre
    | null => exact ⟨[], _, rfl, rfl⟩
    | bool b => exact ⟨[], _, rfl, rfl⟩
    | int n => exact ⟨[], _, rfl, rfl⟩
    | str s => exact ⟨[], _, rfl, rfl⟩
    | dict kvs => exact ⟨[], _, rfl, rfl⟩

/-- C7, counterexample: an import payload whose first report group is
valid and whose second is malformed raises, but leaves the first group
already imported — the store is not "left exactly as before". -/
theorem claim_C7_counterexample :
    (import_false_positives
      (.dict [("false_positives", .dict
        [("k1", .list [encodeReport
            ⟨"i1", "T", "h", locOf 5 "line", "why", Option.none, some "t",
              true⟩]),
         ("k2", .list [.dict []])])])
      freshHandler).2.isSome = true ∧
    (import_false_positives
      (.dict [("false_positives", .dict
        [("k1", .list [encodeReport
            ⟨"i1", "T", "h", locOf 5 "line", "why", Option.none, some "t",
              true⟩]),
         ("k2", .list [.dict []])])])
      freshHandler).1.false_positives ≠ freshHandler.false_positives := by
  constructor
  · rfl
  · show ([("k1", [(⟨"i1", "T", "h", locOf 5 "line", "why", Option.none,
      some "t", true⟩ : FalsePositiveReport)])] :
        List (String × List FalsePositiveReport)) ≠ []
    exact List.cons_ne_nil _ _

/-- C7, amended: a failed import raises to the caller, never touches the
learning patterns, and leaves the false-positive store equal to the result
of importing some prefix of the payload's report groups — the groups
before the failing entry stay imported, so only failures occurring before
the first group (unparseable or non-object payloads, or a bad first
group) leave the store exactly as it was. -/
theorem claim_C7_amended (h : FalsePositiveHandler) (data : PyVal)
    (hfail : (import_false_positives data h).2.isSome = true) :
    (import_false_positives data h).1.issue_patterns = h.issue_patterns ∧
    (import_false_positives data h).1.learning_data = h.learning_data ∧
    ∃ pre post, importGroupsOf data = pre ++ post ∧
      importGroups pre h = ((import_false_positives data h).1,
        Option.none) := by
  rcases data with _ | b | n | s | xs | kvs
  · exact ⟨rfl, rfl, [], [], rfl, rfl⟩
  · exact ⟨rfl, rfl, [], [], rfl, rfl⟩
  · exact ⟨rfl, rfl, [], [], rfl, rfl⟩
  · exact ⟨rfl, rfl, [], [], rfl, rfl⟩
  · exact ⟨rfl, rfl, [], [], rfl, rfl⟩
  · rcases hfp : pyGetD (.dict kvs) "false_positives" (.dict [])
      with _ | b2 | n2 | s2 | xs2 | groups
    · simp only [import_false_positives, importGroupsOf, hfp]
      exact ⟨trivial, trivial, [], [], rfl, rfl⟩
    · simp only [import_false_positives, importGroupsOf, hfp]
      exact ⟨trivial, trivial, [], [], rfl, rfl⟩
    · simp only [import_false_positives, importGroupsOf, hfp]
      exact ⟨trivial, trivial, [], [], rfl, rfl⟩
    · simp only [import_false_positives, importGroupsOf, hfp]
      exact ⟨trivial, trivial, [], [], rfl, rfl⟩
    · simp only [import_false_positives, importGroupsOf, hfp]
      exact ⟨trivial, trivial, [], [], rfl, rfl⟩
    · rcases hig : importGroups groups h with ⟨h2, e⟩
      rcases e with _ | err
      · rcases hlp : decodeLearning (pyGetD (.dict kvs) "learning_patterns"
            (.dict [])) with _ | ps
        · simp only [import_false_positives, importGroupsOf, hfp, hig, hlp]
          have hframe := importGroups_frame groups h
          rw [hig] at hframe
          exact ⟨hframe.1, hframe.2, groups, [], (List.append_nil _).symm,
            by rw [hig]⟩
        · simp only [import_false_positives, hfp, hig, hlp] at hfail
          simp at hfail
      · simp only [import_false_positives, importGroupsOf, hfp, hig]
        have hframe := importGroups_frame groups h
        rw [hig] at hframe
        obtain ⟨pre, post, hsplit, hpre⟩ :=
          importGroups_err_split groups h err (by rw [hig])
        rw [hig] at hpre
        exact ⟨hframe.1, hframe.2, pre, post, hsplit, hpre⟩

/-- C7, witness: the amended theorem applied to the counterexample's
failing payload. -/
theorem claim_C7_witness :
    (import_false_positives
      (.dict [("false_positives", .dict [("k2", .list [.dict []])])])
      freshHandler).1.issue_patterns = freshHandler.issue_patterns ∧
    (import_false_positives
      (.dict [("false_positives", .dict [("k2", .list [.dict []])])])
      freshHandler).1.learning_data = freshHandler.learning_data ∧
    ∃ pre post, importGroupsOf
        (.dict [("false_positives", .dict [("k2", .list [.dict []])])]) =
        pre ++ post ∧
      importGroups pre freshHandler =
        ((import_false_positives
          (.dict [("false_positives", .dict [("k2", .list [.dict []])])])
          freshHandler).1, Option.none) :=
  claim_C7_amended freshHandler
    (.dict [("false_positives", .dict [("k2", .list [.dict []])])]) rfl

theorem decodeOptStr_optStr (o : Option String) :
    decodeOptStr (some (optStr o)) = some o := by
  cases o <;> rfl

theorem decodeReport_encodeReport (r : FalsePositiveReport) :
    decodeReport (encodeReport r) = some r := by
  obtain ⟨iid, ity, ch, loc, rsn, rby, rat, b⟩ := r
  cases rby <;> cases rat <;> rfl

theorem decodeReportList_map (rs : List FalsePositiveReport) :
    decodeReportList (rs.map encodeReport) = some rs := by
  induction rs with
  | nil => rfl
  | cons r rest ih =>
    rw [List.map_cons, decodeReportList, decodeReport_encodeReport r, ih]

theorem decodeEntry_encodeEntry (p : PatternEntry) :
    decodeEntry (encodeEntry p) = some p := rfl

theorem decodeEntryList_map (ps : List PatternEntry) :
    decodeEntryList (ps.map encodeEntry) = some ps := by
  induction ps with
  | nil => rfl
  | cons p rest ih =>
    rw [List.map_cons, decodeEntryList, decodeEntry_encodeEntry p, ih]

theorem decodeLearningOne_enc (lp : LearningPattern) :
    decodeLearningOne (PyVal.dict
      [("false_positive_count", .int lp.false_positive_count),
       ("patterns", .list (lp.patterns.map encodeEntry))]) = some lp := by
  show (decodeEntryList (lp.patterns.map encodeEntry)).map
      (fun l => ⟨lp.false_positive_count, l⟩) = some lp
  rw [decodeEntryList_map]
  rfl

theorem decodeLearningList_map (pats : List (String × LearningPattern)) :
    decodeLearningList (pats.map (fun kv => (kv.1,
      PyVal.dict [("false_positive_count", .int kv.2.false_positive_count),
                  ("patterns", .list (kv.2.patterns.map encodeEntry))]))) =
      some pats := by
  induction pats with
  | nil => rfl
  | cons kv rest ih =>
    obtain ⟨k, lp⟩ := kv
    simp only [List.map_cons]
    rw [decodeLearningList, decodeLearningOne_enc lp, ih]

theorem decodeLearning_encodeLearning
    (pats : List (String × LearningPattern)) :
    decodeLearning (encodeLearning pats) = some pats := by
  rw [encodeLearning, decodeLearning]
  exact decodeLearningList_map pats

theorem importGroups_enc (fps : List (String × List FalsePositiveReport))
    (h0 : FalsePositiveHandler)
    (hnd : (fps.map Prod.fst).Nodup)
    (hdis : ∀ k ∈ fps.map Prod.fst,
      List.lookup k h0.false_positives = Option.none) :
    importGroups (fps.map (fun kv =>
        (kv.1, PyVal.list (kv.2.map encodeReport)))) h0 =
      ({ h0 with false_positives := h0.false_positives ++ fps },
        Option.none) := by
  induction fps generalizing h0 with
  | nil =>
    rw [List.map_nil, List.append_nil]
    rfl
  | cons kv rest ih =>
    obtain ⟨k, reports⟩ := kv
    rw [List.map_cons] at hnd
    obtain ⟨hknot, hnd2⟩ := List.nodup_cons.mp hnd
    have hk : List.lookup k h0.false_positives = Option.none :=
      hdis k (by simp)
    have hset : setA h0.false_positives k reports =
        h0.false_positives ++ [(k, reports)] := setA_absent hk reports
    have hdis2 : ∀ k2 ∈ rest.map Prod.fst,
        List.lookup k2 (setA h0.false_positives k reports) =
          Option.none := by
      intro k2 hk2
      have hk2abs : List.lookup k2 h0.false_positives = Option.none :=
        hdis k2 (by simp [hk2])
      have hne : (k2 == k) = false :=
        beq_eq_false_iff_ne.mpr (fun he => hknot (he ▸ hk2))
      rw [hset, lookup_append_absent hk2abs, List.lookup, hne]
      rfl
    simp only [List.map_cons, importGroups, decodeReportList_map]
    rw [ih _ hnd2 hdis2, hset, List.append_assoc]
    rfl

/-- C8: importing the exported state into a fresh handler reproduces the
false-positive store exactly (every report, verified flags included) and
the learning patterns exactly (so per-type counts are equal); only the
unexported `learning_data` log starts empty. The hypothesis is the Python
dict invariant that the store's keys are distinct. -/
theorem claim_C8_theorem (h : FalsePositiveHandler) (now : String)
    (hnd : (h.false_positives.map Prod.fst).Nodup) :
    import_false_positives (export_false_positives h now) freshHandler =
      ({ false_positives := h.false_positives,
         issue_patterns := h.issue_patterns,
         learning_data := [] }, Option.none) := by
  have hgs := importGroups_enc h.false_positives freshHandler hnd
    (fun k _ => rfl)
  have step1 : import_false_positives (export_false_positives h now)
      freshHandler =
      (match importGroups (h.false_positives.map (fun kv =>
          (kv.1, PyVal.list (kv.2.map encodeReport)))) freshHandler with
       | (h2, some e) => (h2, some e)
       | (h2, Option.none) =>
         match decodeLearning (encodeLearning h.issue_patterns) with
         | some ps => ({ h2 with issue_patterns := ps }, Option.none)
         | Option.none =>
           (h2, some "TypeError: bad learning patterns")) := rfl
  rw [step1, hgs, decodeLearning_encodeLearning]
  rfl

/-- C8, witness: the round trip at a one-group handler state containing a
verified report, one learning pattern, and a nonempty learning-data log
(the log is the part that does not survive the trip). -/
theorem claim_C8_witness :
    import_false_positives
      (export_false_positives
        ⟨[("T:a", [⟨"i1", "T", "a", locOf 5 "line", "r", Option.none,
            some "t", true⟩])],
         [("T", ⟨1, [⟨"r", PyVal.str "line", 1⟩]⟩)],
         [("T", [PyVal.str "x"])]⟩ "now") freshHandler =
      ({ false_positives := [("T:a", [⟨"i1", "T", "a", locOf 5 "line", "r",
           Option.none, some "t", true⟩])],
         issue_patterns := [("T", ⟨1, [⟨"r", PyVal.str "line", 1⟩]⟩)],
         learning_data := [] }, Option.none) :=
  claim_C8_theorem
    ⟨[("T:a", [⟨"i1", "T", "a", locOf 5 "line", "r", Option.none,
        some "t", true⟩])],
     [("T", ⟨1, [⟨"r", PyVal.str "line", 1⟩]⟩)],
     [("T", [PyVal.str "x"])]⟩ "now" (by decide)

/-- The union of changed line numbers used by `filter_affected_issues`
(`changeset.added_lines | changeset.modified_lines |
changeset.removed_lines`). -/
def changedLines (cs : PyChangeSet) : Finset ℕ :=
  cs.added_lines ∪ cs.modified_lines ∪ cs.removed_lines

/-- `issue.get('location', {}).get('line') or issue.get('lineNumber')`:
the line value of an issue dict; `.get` on a non-dict raises. -/
def issueLineOf (issue : PyVal) : Except String PyVal :=
  match issue with
  | .dict kvs =>
    match (lookupKV kvs "location").getD (.dict []) with
    | .dict lkvs =>
      Except.ok (pyOr ((lookupKV lkvs "line").getD .null)
        ((lookupKV kvs "lineNumber").getD .null))
    | _ => Except.error "AttributeError: get on non-dict"
  | _ => Except.error "AttributeError: get on non-dict"

/-- An integer issue line is affected when it lies in the changed set or
within 20 of some changed line (the `for changed_line ... break` loop). -/
def issueAffected (cs : PyChangeSet) (n : Int) : Bool :=
  decide (0 ≤ n ∧ n.toNat ∈ changedLines cs) ||
    decide (∃ c ∈ changedLines cs, (n - (c : Int)).natAbs ≤ 20)

/-- `IncrementalAnalyzer.filter_affected_issues`. A falsy line value means
the issue is kept "to be safe"; a truthy integer (or `True`, which Python
treats as 1) is kept exactly when affected; any other truthy line value
survives `in changed_lines` (plain inequality) but raises in
`abs(issue_line - changed_line)` once the loop body runs. -/
def filter_affected_issues (issues : List PyVal) (cs : PyChangeSet) :
    Except String (List PyVal) :=
  match issues with
  | [] => Except.ok []
  | issue :: rest => do
    let lv ← issueLineOf issue
    let keep ←
      if pyTruthy lv then
        match lv with
        | .int n => Except.ok (issueAffected cs n)
        | .bool _ => Except.ok (issueAffected cs 1)
        | _ =>
          if changedLines cs = ∅ then Except.ok false
          else Except.error "TypeError: unsupported operand"
      else Except.ok true
    let tail ← filter_affected_issues rest cs
    Except.ok (if keep then issue :: tail else tail)

/-- `r.get(k, [])` followed by iteration: the stored value must be a
list. -/
def getIssues (r : PyVal) (k : String) : Except String (List PyVal) :=
  match r with
  | .dict kvs =>
    match (lookupKV kvs k).getD (.list []) with
    | .list l => Except.ok l
    | _ => Except.error "TypeError: not iterable"
  | _ => Except.error "AttributeError: get on non-dict"

/-- Python `list(set(l))`: inserting the first dict (or list) element
raises `TypeError: unhashable type`; otherwise duplicates under `==` are
collapsed. CPython's set iteration order is hash-dependent and
unspecified; this model keeps the last occurrence first, and no claim
depends on the order — only on the raising and emptiness behaviour. -/
def pySetList (l : List PyVal) : Except String (List PyVal) :=
  match l with
  | [] => Except.ok []
  | v :: vs =>
    match v with
    | .dict _ => Except.error "TypeError: unhashable type: dict"
    | .list _ => Except.error "TypeError: unhashable type: list"
    | _ => (pySetList vs).map
        (fun rest => if rest.any (pyEq v) then rest else v :: rest)

/-- `sum(1 for v in l if v.get("severity") == sev)`: `.get` on a non-dict
element raises. -/
def countSeverity (l : List PyVal) (sev : String) : Except String Int :=
  match l with
  | [] => Except.ok 0
  | v :: rest =>
    match v with
    | .dict kvs => do
      let c ← countSeverity rest sev
      Except.ok ((if pyEq ((lookupKV kvs "severity").getD .null)
        (.str sev) then 1 else 0) + c)
    | _ => Except.error "AttributeError: get on non-dict"

/-- `IncrementalAnalyzer.merge_analysis_results`; evaluation follows the
source's statement order, so the first raising subexpression decides the
error. -/
def merge_analysis_results (cached_result new_result : PyVal)
    (changeset : PyChangeSet) : Except String PyVal := do
  let cvs ← getIssues cached_result "vulnerabilities"
  let cached_vulns ← filter_affected_issues cvs changeset
  let cgs ← getIssues cached_result "gasOptimizations"
  let cached_gas ← filter_affected_issues cgs changeset
  let cqs ← getIssues cached_result "codeQuality"
  let cached_quality ← filter_affected_issues cqs changeset
  let nvs ← getIssues new_result "vulnerabilities"
  let mergedV ← pySetList (cached_vulns ++ nvs)
  let ngs ← getIssues new_result "gasOptimizations"
  let mergedG ← pySetList (cached_gas ++ ngs)
  let nqs ← getIssues new_result "codeQuality"
  let mergedQ ← pySetList (cached_quality ++ nqs)
  let hi ← countSeverity mergedV "HIGH"
  let md ← countSeverity mergedV "MEDIUM"
  let lo ← countSeverity mergedV "LOW"
  let meta ← match new_result with
    | .dict kvs =>
      match (lookupKV kvs "metadata").getD (.dict []) with
      | .dict mkvs => Except.ok mkvs
      | _ => Except.error "TypeError: item assignment on non-dict"
    | _ => Except.error "AttributeError: get on non-dict"
  Except.ok (.dict [
    ("summary", .dict [
      ("totalVulnerabilities", .int mergedV.length),
      ("highSeverity", .int hi),
      ("mediumSeverity", .int md),
      ("lowSeverity", .int lo),
      ("gasOptimizations", .int mergedG.length),
      ("codeQualityIssues", .int mergedQ.length)]),
    ("vulnerabilities", .list mergedV),
    ("gasOptimizations", .list mergedG),
    ("codeQuality", .list mergedQ),
    ("metadata", .dict (setA (setA meta "incremental" (.bool true))
      "changeset" (.dict [
        ("added", .int changeset.added_lines.card),
        ("modified", .int changeset.modified_lines.card),
        ("removed", .int changeset.removed_lines.card)])))])

/-- C1: `merge_analysis_results` does not produce the claimed merge: with
a cached report holding one vulnerability dict, an empty fresh report and
the changeset that touches the issue, it raises `TypeError` (Python
`set()` cannot hold dict elements) instead of returning a report; and its
cached-side filter keeps the *affected* issues while dropping a far-away
still-valid one, the opposite of the claimed selection. -/
theorem claim_C1_theorem :
    merge_analysis_results
      (.dict [("vulnerabilities",
        .list [.dict [("severity", .str "HIGH"), ("lineNumber", .int 3)]])])
      (.dict []) ⟨{3}, ∅, ∅, []⟩ =
      Except.error "TypeError: unhashable type: dict" ∧
    filter_affected_issues
      [.dict [("severity", .str "HIGH"), ("lineNumber", .int 100)]]
      ⟨{3}, ∅, ∅, []⟩ = Except.ok [] :=
  ⟨rfl, rfl⟩

end View0x
